import Mathlib

/-!
cplot: graph.c and the helpers of test.c.

A shallow embedding of `setupgraph` and `plotpoint` (graph.c) and of `getdt`
and `saveimage` (test.c).

Conventions of the embedding
* A C `float` is an IEEE 754 binary32 value: a finite rational, an infinity
  or a NaN.  Every float operation computes the exact result and rounds it
  once to binary32, to nearest with ties to even (`round32`), with no excess
  precision; a result of magnitude `2^128` or more after rounding is an
  infinity.  The sign of a zero
  is not tracked: it can only change the sign of an infinity, and no
  statement below depends on that sign.
* The float arguments and the float fields of a graph are carried as
  rationals; they stand for finite binary32 values.
* C `int` values are integers.  An `int` converted to float is rounded like
  any other value.  C leaves the conversion of a NaN, an infinity or a float
  outside the `int` range to `int` undefined; the embedding takes the int that
  such a conversion leaves behind as a parameter (`undef`), so that a
  statement proved for every `undef` holds whatever the hardware delivers.
  A product of two `int`s that overflows wraps around modulo `2^32`, the
  two's complement result (C leaves it undefined).
* `setpixel` lives in a file that is not part of the sources: it is a
  parameter acting on an arbitrary memory type `σ`.
-/

namespace Cplot

/-! ## Data model -/

/-- Modelled from the spec: `struct pixelmap` is declared in graphics.h, which
is absent; the fields are the ones graph.c and test.c read.  `pixeldata` is
the address of the pixel storage. -/
structure pixelmap where
  width : Int
  height : Int
  stride : Int
  bpp : Int
  pixeldata : Nat
deriving DecidableEq, Repr

/-- Modelled from the spec: `struct graph` is declared in graphics.h, which is
absent; the fields are the ones `setupgraph` assigns. -/
structure graph where
  xmin : ℚ
  xmax : ℚ
  ymin : ℚ
  ymax : ℚ
  pixelmap : pixelmap
deriving DecidableEq, Repr

/-- Smallest value of a C `int` (32 bits). -/
def INT_MIN : Int := -2147483648

/-- Largest value of a C `int` (32 bits). -/
def INT_MAX : Int := 2147483647

/-! ## Binary32 arithmetic -/

/-- A binary32 value: a finite rational, an infinity with its sign (`true` for
the negative one), or a NaN. -/
inductive float where
  | fin (q : ℚ)
  | inf (neg : Bool)
  | nan
deriving DecidableEq, Repr

/-- Rounding of a rational to the nearest integer, a tie going to the even
neighbour. -/
def roundHalfEven (t : ℚ) : Int :=
  if t - ⌊t⌋ < 1 / 2 then ⌊t⌋
  else if 1 / 2 < t - ⌊t⌋ then ⌊t⌋ + 1
  else if ⌊t⌋ % 2 = 0 then ⌊t⌋ else ⌊t⌋ + 1

/-- The binary exponent binary32 uses for `q`: `floor(log2 |q|)`, and `-126`
in the subnormal range, zero included. -/
def fexp (q : ℚ) : Int := if q = 0 then -126 else max (Int.log 2 |q|) (-126)

/-- The spacing of binary32 values around `q`: 24 significant bits. -/
def ulp (q : ℚ) : ℚ := (2 : ℚ) ^ (fexp q - 23)

/-- Rounding of `q` to 24 significant bits, to nearest, ties to even, the
exponent unbounded above. -/
def rnd (q : ℚ) : ℚ := roundHalfEven (q / ulp q) * ulp q

/-- Rounding of an exact result to binary32: overflow gives the infinity of
the sign of `q`. -/
def round32 (q : ℚ) : float :=
  if (2 : ℚ) ^ 128 ≤ |rnd q| then float.inf (decide (q < 0)) else float.fin (rnd q)

/-- Float subtraction `a - b`. -/
def fsub : float → float → float
  | float.fin a, float.fin b => round32 (a - b)
  | float.fin _, float.inf s => float.inf (!s)
  | float.inf s, float.fin _ => float.inf s
  | float.inf s, float.inf t => if s = t then float.nan else float.inf s
  | float.nan, _ => float.nan
  | _, float.nan => float.nan

/-- Float division `a / b`. -/
def fdiv : float → float → float
  | float.fin a, float.fin b =>
    if b = 0 then (if a = 0 then float.nan else float.inf (decide (a < 0)))
    else round32 (a / b)
  | float.fin _, float.inf _ => float.fin 0
  | float.inf s, float.fin b => float.inf (xor s (decide (b < 0)))
  | float.inf _, float.inf _ => float.nan
  | float.nan, _ => float.nan
  | _, float.nan => float.nan

/-- Float multiplication `a * b`. -/
def fmul : float → float → float
  | float.fin a, float.fin b => round32 (a * b)
  | float.fin a, float.inf s =>
    if a = 0 then float.nan else float.inf (xor s (decide (a < 0)))
  | float.inf s, float.fin b =>
    if b = 0 then float.nan else float.inf (xor s (decide (b < 0)))
  | float.inf s, float.inf t => float.inf (xor s t)
  | float.nan, _ => float.nan
  | _, float.nan => float.nan

/-- Conversion of an integer (`int` or `long`) to float. -/
def itof (n : Int) : float := round32 n

/-- Rounding toward zero, the rule of the C conversion from float to int. -/
def trunc (q : ℚ) : Int := if 0 ≤ q then ⌊q⌋ else ⌈q⌉

/-- Conversion of a float to `int` in an initialiser `int x = <float>`:
truncation toward zero when the truncated value is an `int`, and the
unspecified `undef` otherwise. -/
def ftoi (undef : Int) : float → Int
  | float.fin q => if INT_MIN ≤ trunc q ∧ trunc q ≤ INT_MAX then trunc q else undef
  | _ => undef

/-- The value of an `int` expression whose exact value is `n`: reduced modulo
`2^32` into `[INT_MIN, INT_MAX]`. -/
def wrap32 (n : Int) : Int := (n + 2147483648) % 4294967296 - 2147483648

/-- The `int` product `a * b`. -/
def imul (a b : Int) : Int := wrap32 (a * b)

/-! ## graph.c -/

/-- Embedding of `setupgraph` (graph.c lines 8-17): the returned `bool` and the
graph after the assignments. -/
def setupgraph (_g : graph) (xmin ymin xmax ymax : ℚ) (pm : pixelmap) :
    Bool × graph :=
  (true, { xmin := xmin, xmax := xmax, ymin := ymin, ymax := ymax, pixelmap := pm })

/-- The two locals `x` and `y` of `plotpoint` (graph.c lines 22-25): a float
subtraction, a float division by a float subtraction, a float multiplication
by the `int` size converted to float, and the conversion to `int`. -/
def plotcoords (undef : Int × Int) (g : graph) (_x _y : ℚ) : Int × Int :=
  (ftoi undef.1
     (fmul (fdiv (fsub (float.fin _x) (float.fin g.xmin))
                 (fsub (float.fin g.xmax) (float.fin g.xmin)))
           (itof g.pixelmap.width)),
   ftoi undef.2
     (fmul (fdiv (fsub (float.fin g.ymax) (float.fin _y))
                 (fsub (float.fin g.ymax) (float.fin g.ymin)))
           (itof g.pixelmap.height)))

/-- Embedding of `plotpoint` (graph.c lines 19-30).  `mem` is the memory that
`setpixel` acts on; the early `return` leaves it as it is. -/
def plotpoint {σ : Type} (undef : Int × Int)
    (setpixel : pixelmap → Int → Int → Nat → σ → σ)
    (g : graph) (_x _y : ℚ) (value : Nat) (mem : σ) : σ :=
  let x := (plotcoords undef g _x _y).1
  let y := (plotcoords undef g _x _y).2
  if x < 0 ∨ y < 0 ∨ x ≥ g.pixelmap.width ∨ y ≥ g.pixelmap.height then
    mem
  else
    setpixel g.pixelmap x y value mem

/-- A `setpixel` that appends its arguments to a log: the log of a run of
`plotpoint` from the empty log lists the `setpixel` calls it made. -/
def recordpixel (_pm : pixelmap) (x y : Int) (value : Nat)
    (log : List (Int × Int × Nat)) : List (Int × Int × Nat) :=
  log ++ [(x, y, value)]

/-- A graph as the claims configure it: non-degenerate bounds and a pixelmap
whose width and height are positive `int`s. -/
def Configured (g : graph) : Prop :=
  g.xmin < g.xmax ∧ g.ymin < g.ymax ∧
  0 < g.pixelmap.width ∧ g.pixelmap.width ≤ INT_MAX ∧
  0 < g.pixelmap.height ∧ g.pixelmap.height ≤ INT_MAX

instance (g : graph) : Decidable (Configured g) := by
  unfold Configured; infer_instance

/-- The float difference `hi - lo` is finite and not zero.  (For binary32
values `lo < hi` it is never zero; it is infinite when the subtraction
overflows.) -/
def FiniteSpan (lo hi : ℚ) : Prop := 0 < rnd (hi - lo) ∧ rnd (hi - lo) < (2 : ℚ) ^ 128

/-- Both float differences `xmax - xmin` and `ymax - ymin` of the graph are
finite and not zero. -/
def FiniteSpans (g : graph) : Prop :=
  FiniteSpan g.xmin g.xmax ∧ FiniteSpan g.ymin g.ymax

/-- The value of the float expression `n / d * size` of `plotpoint` when no
step overflows: each of the two subtractions, the division, the conversion of
`size` and the multiplication rounded once. -/
def fcoord (n d : ℚ) (size : Int) : ℚ :=
  rnd (rnd (rnd n / rnd d) * rnd size)

/-- The pixel column as the specification writes it:
`floor((x - xmin) / (xmax - xmin) * bufferWidth)`. -/
def specPixelX (g : graph) (x : ℚ) : Int :=
  ⌊(x - g.xmin) / (g.xmax - g.xmin) * g.pixelmap.width⌋

/-- The pixel row as the specification writes it:
`floor((ymax - y) / (ymax - ymin) * bufferHeight)`. -/
def specPixelY (g : graph) (y : ℚ) : Int :=
  ⌊(g.ymax - y) / (g.ymax - g.ymin) * g.pixelmap.height⌋

/-- The binary32 value nearest to `2 * M_PI`: `13176795 * 2^-21`. -/
def twopi : ℚ := 13176795 / 2097152

/-- The graph of the test program: domain `[-a, a] x [-2, 2]` on a
480 x 272 pixelmap of depth 32 (test.c lines 231-235, `a` standing for
`2 * M_PI`). -/
def testgraph (a : ℚ) : graph :=
  { xmin := -a, xmax := a, ymin := -2, ymax := 2,
    pixelmap := { width := 480, height := 272, stride := 480, bpp := 32, pixeldata := 0 } }

/-- A 4 x 4 pixelmap over the unit square, for small hand-checkable runs. -/
def unitgraph : graph :=
  { xmin := 0, xmax := 1, ymin := 0, ymax := 1,
    pixelmap := { width := 4, height := 4, stride := 4, bpp := 32, pixeldata := 0 } }

/-- The unit square on a pixelmap of width `2^24 + 1`, the first `int` that
binary32 cannot hold. -/
def widegraph : graph :=
  { xmin := 0, xmax := 1, ymin := 0, ymax := 1,
    pixelmap := { width := 16777217, height := 4, stride := 16777217, bpp := 32,
                  pixeldata := 0 } }

/-- A 4 x 4 pixelmap over `[-2^127, 2^127] x [0, 1]`: the float difference
`xmax - xmin` overflows. -/
def hugegraph : graph :=
  { xmin := -170141183460469231731687303715884105728,
    xmax := 170141183460469231731687303715884105728, ymin := 0, ymax := 1,
    pixelmap := { width := 4, height := 4, stride := 4, bpp := 32, pixeldata := 0 } }

/-! ## test.c: getdt -/

/-- The `struct timeval` of sys/time.h: seconds and microseconds. -/
structure timeval where
  tv_sec : Int
  tv_usec : Int
deriving DecidableEq, Repr

/-- The `timersub(a, b, res)` macro of sys/time.h: the field-wise difference,
with one second borrowed when the microsecond difference is negative. -/
def timersub (a b : timeval) : timeval :=
  let res : timeval := { tv_sec := a.tv_sec - b.tv_sec, tv_usec := a.tv_usec - b.tv_usec }
  if res.tv_usec < 0 then
    { tv_sec := res.tv_sec - 1, tv_usec := res.tv_usec + 1000000 }
  else
    res

/-- Embedding of `getdt` (test.c lines 37-44).  `clock` is what
`gettimeofday` stores into the global `now`; the result is the returned float,
`(float)res.tv_usec / 1000000`, and the new value of `now`. -/
def getdt (clock last_time : timeval) : float × timeval :=
  let now := clock
  let res := timersub now last_time
  (fdiv (itof res.tv_usec) (itof 1000000), now)

/-- A timestamp as `gettimeofday` delivers it: microseconds in `[0, 1000000)`. -/
def timeval.wf (t : timeval) : Prop := 0 ≤ t.tv_usec ∧ t.tv_usec < 1000000

/-- Time order on timestamps: `a` is not later than `b`. -/
def timeval.le (a b : timeval) : Prop :=
  a.tv_sec < b.tv_sec ∨ (a.tv_sec = b.tv_sec ∧ a.tv_usec ≤ b.tv_usec)

instance (t : timeval) : Decidable t.wf := by
  unfold timeval.wf; infer_instance

instance (a b : timeval) : Decidable (a.le b) := by
  unfold timeval.le; infer_instance

/-- The elapsed time in seconds as the specification writes it:
`(now.sec - last.sec) + (now.usec - last.usec) / 1000000`. -/
def specElapsed (now last : timeval) : ℚ :=
  ((now.tv_sec - last.tv_sec : Int) : ℚ) + ((now.tv_usec - last.tv_usec : Int) : ℚ) / 1000000

/-! ## test.c: saveimage -/

/-- The three libpng colour types `saveimage` selects (png.h). -/
inductive png_color_type where
  | PNG_COLOR_TYPE_GRAY
  | PNG_COLOR_TYPE_RGB
  | PNG_COLOR_TYPE_RGB_ALPHA
deriving DecidableEq, Repr

/-- The library calls `saveimage` makes, with the arguments that depend on the
pixelmap.  `png_set_rows` carries the row pointers, each as its distance in
bytes from `pixelmap->pixeldata`: `none` is an entry of `png_rows` that was
never assigned. -/
inductive pngcall where
  | fopen
  | fclose
  | png_create_write_struct
  | png_create_info_struct
  | png_destroy_write_struct
  | fprintf_stderr
  | png_set_IHDR (width height bit_depth : Int) (color_type : png_color_type)
  | png_malloc (count : Int)
  | png_init_io
  | png_set_rows (png_rows : List (Option Int))
  | png_write_png
  | png_free
deriving DecidableEq, Repr

/-- What the outside world answers to `saveimage`: whether `fopen` and the two
libpng constructors succeed, and the index (in program order after `setjmp`)
of the libpng call that raises an error and jumps back to `setjmp`, if any. -/
structure pngenv where
  fopen_ok : Bool
  write_struct_ok : Bool
  info_struct_ok : Bool
  png_error_at : Option Nat
deriving DecidableEq, Repr

/-- The first `switch (pixelmap->bpp)` of `saveimage` (test.c lines 93-111):
the colour type, or `none` on the `default` branch. -/
def color_type_switch (bpp : Int) : Option png_color_type :=
  if bpp = 8 then some png_color_type.PNG_COLOR_TYPE_GRAY
  else if bpp = 24 then some png_color_type.PNG_COLOR_TYPE_RGB
  else if bpp = 32 then some png_color_type.PNG_COLOR_TYPE_RGB_ALPHA
  else none

/-- The second `switch (pixelmap->bpp)` of `saveimage` (test.c lines 125-139):
the pointer stored in `png_rows[y]`, as its distance in bytes from
`pixelmap->pixeldata`.  The index is an `int` expression; indexing a
`uint8_t *` moves one byte per element, indexing a `uint32_t *` four.  The
switch has no `default`, so any other depth leaves the entry unassigned. -/
def rowpointer (pm : pixelmap) (y : Int) : Option Int :=
  if pm.bpp = 8 then some (1 * imul y pm.stride)
  else if pm.bpp = 24 then some (1 * imul (imul y pm.stride) 3)
  else if pm.bpp = 32 then some (4 * imul y pm.stride)
  else none

/-- The `int` index expression of row `y` does not overflow: `y * stride` is an
`int`, and so is `y * stride * 3` when the depth is 24. -/
def IndexFits (pm : pixelmap) (y : Int) : Prop :=
  INT_MIN ≤ y * pm.stride ∧ y * pm.stride ≤ INT_MAX ∧
  (pm.bpp = 24 → INT_MIN ≤ y * pm.stride * 3 ∧ y * pm.stride * 3 ≤ INT_MAX)

instance (pm : pixelmap) (y : Int) : Decidable (IndexFits pm y) := by
  unfold IndexFits; infer_instance

/-- The loop `for (int y = 0; y < pixelmap->height; y++)` of `saveimage`
(test.c lines 123-140): the contents of `png_rows`. -/
def png_rows (pm : pixelmap) : List (Option Int) :=
  (List.range pm.height.toNat).map (fun (y : Nat) => rowpointer pm (y : Int))

/-- Embedding of `saveimage` (test.c lines 62-148): the library calls it makes,
in order. -/
def saveimage (env : pngenv) (pm : pixelmap) : List pngcall :=
  if env.fopen_ok = false then
    [pngcall.fopen]
  else if env.write_struct_ok = false then
    [pngcall.fopen, pngcall.png_create_write_struct, pngcall.fclose]
  else if env.info_struct_ok = false then
    [pngcall.fopen, pngcall.png_create_write_struct, pngcall.png_create_info_struct,
     pngcall.png_destroy_write_struct, pngcall.fclose]
  else
    let opened := [pngcall.fopen, pngcall.png_create_write_struct,
                   pngcall.png_create_info_struct]
    match color_type_switch pm.bpp with
    | none =>
      opened ++ [pngcall.fprintf_stderr, pngcall.png_destroy_write_struct, pngcall.fclose]
    | some png_color_type =>
      let body := [pngcall.png_set_IHDR pm.width pm.height 8 png_color_type,
                   pngcall.png_malloc pm.height,
                   pngcall.png_init_io,
                   pngcall.png_set_rows (png_rows pm),
                   pngcall.png_write_png,
                   pngcall.png_free]
      let made := match env.png_error_at with
        | some k => body.take (k + 1)
        | none => body
      opened ++ made ++ [pngcall.png_destroy_write_struct, pngcall.fclose]

/-- The outside world in which every call of `saveimage` succeeds. -/
def pngenv.ok : pngenv :=
  { fopen_ok := true, write_struct_ok := true, info_struct_ok := true, png_error_at := none }

/-- A 2 x 3 pixelmap of depth 24 with a stride of 4 pixels, for small
hand-checkable runs of `saveimage`. -/
def rgbmap : pixelmap :=
  { width := 2, height := 3, stride := 4, bpp := 24, pixeldata := 1000 }

/-- The outside world in which `fopen` fails. -/
def pngenv.nofile : pngenv :=
  { fopen_ok := false, write_struct_ok := true, info_struct_ok := true, png_error_at := none }

/-- A pixelmap of depth 16, which `saveimage` does not support. -/
def deepmap : pixelmap :=
  { width := 2, height := 3, stride := 4, bpp := 16, pixeldata := 1000 }

/-- A 1 x 3 pixelmap of depth 8 whose stride is `2^30` pixels: the index of
row 2 is `2^31`, one more than `INT_MAX`. -/
def stridemap : pixelmap :=
  { width := 1, height := 3, stride := 1073741824, bpp := 8, pixeldata := 1000 }

/-! ## Rounding to the nearest integer -/

/-- An integer rounds to itself. -/
theorem roundHalfEven_intCast (n : Int) : roundHalfEven (n : ℚ) = n := by
  simp [roundHalfEven]

/-- The rounded value is the floor or the floor plus one. -/
theorem roundHalfEven_cases (t : ℚ) :
    roundHalfEven t = ⌊t⌋ ∨ roundHalfEven t = ⌊t⌋ + 1 := by
  unfold roundHalfEven
  split_ifs <;> simp

/-- Rounding to the nearest integer is monotone. -/
theorem roundHalfEven_mono {s t : ℚ} (h : s ≤ t) : roundHalfEven s ≤ roundHalfEven t := by
  have hfl : ⌊s⌋ ≤ ⌊t⌋ := Int.floor_le_floor h
  rcases lt_or_eq_of_le hfl with hlt | heq
  · have h1 : roundHalfEven s ≤ ⌊s⌋ + 1 := by
      rcases roundHalfEven_cases s with e | e <;> omega
    have h2 : ⌊t⌋ ≤ roundHalfEven t := by
      rcases roundHalfEven_cases t with e | e <;> omega
    omega
  · have hfr : s - ⌊s⌋ ≤ t - ⌊t⌋ := by rw [heq]; linarith
    unfold roundHalfEven
    rw [heq]
    rw [heq] at hfr
    split_ifs <;> first | omega | (exfalso; linarith)

/-- A value strictly within one half of the integer `n` rounds to `n`. -/
theorem roundHalfEven_near {t : ℚ} (n : Int) (h1 : (n : ℚ) - 1 / 2 < t)
    (h2 : t < n + 1 / 2) : roundHalfEven t = n := by
  rcases le_or_lt (n : ℚ) t with h | h
  · have hf : ⌊t⌋ = n := by
      rw [Int.floor_eq_iff]; constructor <;> linarith
    unfold roundHalfEven
    rw [hf, if_pos (by linarith)]
  · have hf : ⌊t⌋ = n - 1 := by
      rw [Int.floor_eq_iff]; push_cast; constructor <;> linarith
    unfold roundHalfEven
    rw [hf]
    push_cast
    rw [if_neg (by linarith), if_pos (by linarith)]
    ring

/-- A value half way above the even integer `n` rounds down to `n`. -/
theorem roundHalfEven_tie_even {t : ℚ} (n : Int) (h : t = n + 1 / 2) (hn : n % 2 = 0) :
    roundHalfEven t = n := by
  have hf : ⌊t⌋ = n := by
    rw [Int.floor_eq_iff]; constructor <;> linarith
  unfold roundHalfEven
  rw [hf, if_neg (by linarith), if_neg (by linarith), if_pos hn]

/-! ## Rounding to binary32 -/

theorem ulp_pos (q : ℚ) : 0 < ulp q := zpow_pos (by norm_num) _

theorem fexp_ge (q : ℚ) : -126 ≤ fexp q := by
  unfold fexp
  split_ifs
  · exact le_rfl
  · exact le_max_right _ _

theorem fexp_of_ne {q : ℚ} (h : q ≠ 0) : fexp q = max (Int.log 2 |q|) (-126) := by
  rw [fexp, if_neg h]

/-- The exponent of a value in the normal range `[2^E, 2^(E+1))`, `-126 ≤ E`. -/
theorem fexp_eq {q : ℚ} {E : Int} (h1 : (2 : ℚ) ^ E ≤ |q|) (h2 : |q| < (2 : ℚ) ^ (E + 1))
    (h3 : -126 ≤ E) : fexp q = E := by
  have hpos : 0 < |q| := lt_of_lt_of_le (zpow_pos (by norm_num) _) h1
  have hlog : Int.log 2 |q| = E := by
    have ha : E ≤ Int.log 2 |q| :=
      (Int.zpow_le_iff_le_log (by norm_num) hpos).mp (by exact_mod_cast h1)
    have hb : Int.log 2 |q| < E + 1 :=
      (Int.lt_zpow_iff_log_lt (by norm_num) hpos).mp (by exact_mod_cast h2)
    omega
  rw [fexp_of_ne (abs_pos.mp hpos), hlog]
  exact max_eq_left h3

/-- The exponent of a value in the subnormal range. -/
theorem fexp_subnormal {q : ℚ} (h : |q| < (2 : ℚ) ^ (-126 : Int)) : fexp q = -126 := by
  by_cases h0 : q = 0
  · rw [fexp, if_pos h0]
  · have hpos : 0 < |q| := abs_pos.mpr h0
    have hb : Int.log 2 |q| < -126 :=
      (Int.lt_zpow_iff_log_lt (by norm_num) hpos).mp (by exact_mod_cast h)
    rw [fexp_of_ne h0]
    exact max_eq_right hb.le

/-- The power `2^24` times the spacing at exponent `E` is `2^(E+1)`. -/
theorem pow24_mul (E : Int) : (16777216 : ℚ) * (2 : ℚ) ^ (E - 23) = (2 : ℚ) ^ (E + 1) := by
  have h : (16777216 : ℚ) = (2 : ℚ) ^ (24 : Int) := by norm_num
  rw [h, ← zpow_add₀ (by norm_num : (2 : ℚ) ≠ 0)]
  congr 1
  ring

/-- The power `2^23` times the spacing at exponent `E` is `2^E`. -/
theorem pow23_mul (E : Int) : (8388608 : ℚ) * (2 : ℚ) ^ (E - 23) = (2 : ℚ) ^ E := by
  have h : (8388608 : ℚ) = (2 : ℚ) ^ (23 : Int) := by norm_num
  rw [h, ← zpow_add₀ (by norm_num : (2 : ℚ) ≠ 0)]
  congr 1
  ring

/-- Rounding with a known exponent and a known rounded significand. -/
theorem rnd_of_fexp {q : ℚ} {E m : Int} (hE : fexp q = E)
    (hm : roundHalfEven (q / (2 : ℚ) ^ (E - 23)) = m) : rnd q = m * (2 : ℚ) ^ (E - 23) := by
  rw [rnd, ulp, hE, hm]

/-- A value `m * 2^(E-23)` whose exponent is `E` is a fixed point of the
rounding. -/
theorem rnd_exact {q : ℚ} (E m : Int) (hE : fexp q = E) (hm : q = m * (2 : ℚ) ^ (E - 23)) :
    rnd q = q := by
  have hu : (2 : ℚ) ^ (E - 23) ≠ 0 := (zpow_pos (by norm_num) _).ne'
  have hq : q / (2 : ℚ) ^ (E - 23) = (m : ℚ) := by rw [hm]; field_simp
  have hr : roundHalfEven (q / (2 : ℚ) ^ (E - 23)) = m := by
    rw [hq]; exact roundHalfEven_intCast m
  rw [rnd_of_fexp hE hr]
  exact hm.symm

theorem rnd_zero : rnd 0 = 0 := by
  simp [rnd, roundHalfEven]

/-- Rounding keeps a non-negative value non-negative. -/
theorem rnd_nonneg {q : ℚ} (h : 0 ≤ q) : 0 ≤ rnd q := by
  have h0 : (0 : Int) ≤ roundHalfEven (q / ulp q) := by
    have := roundHalfEven_mono (div_nonneg h (ulp_pos q).le)
    simpa [roundHalfEven] using this
  exact mul_nonneg (by exact_mod_cast h0) (ulp_pos q).le

/-- The exponent is monotone on positive values. -/
theorem fexp_mono {a b : ℚ} (ha : 0 < a) (hab : a ≤ b) : fexp a ≤ fexp b := by
  have hb : 0 < b := lt_of_lt_of_le ha hab
  rw [fexp_of_ne ha.ne', fexp_of_ne hb.ne', abs_of_pos ha, abs_of_pos hb]
  exact max_le_max (Int.log_mono_right ha hab) le_rfl

/-- A non-negative value lies below the power of two above its exponent. -/
theorem lt_pow_fexp {q : ℚ} (h : 0 ≤ q) : q < (2 : ℚ) ^ (fexp q + 1) := by
  rcases eq_or_lt_of_le h with h0 | hpos
  · rw [← h0]; exact zpow_pos (by norm_num) _
  · have h1 : q < ((2 : ℕ) : ℚ) ^ (Int.log 2 q + 1) := Int.lt_zpow_succ_log_self (by norm_num) q
    have h2 : ((2 : ℕ) : ℚ) ^ (Int.log 2 q + 1) ≤ (2 : ℚ) ^ (fexp q + 1) := by
      rw [Nat.cast_ofNat]
      apply zpow_le_zpow_right₀ (by norm_num)
      rw [fexp_of_ne hpos.ne', abs_of_pos hpos]
      have := le_max_left (Int.log 2 q) (-126)
      omega
    exact lt_of_lt_of_le h1 h2

/-- A non-negative value rounds to at most the next power of two. -/
theorem rnd_le_pow {q : ℚ} (h : 0 ≤ q) : rnd q ≤ (2 : ℚ) ^ (fexp q + 1) := by
  have hdiv : q / ulp q ≤ ((16777216 : Int) : ℚ) := by
    rw [div_le_iff₀ (ulp_pos q), ulp]
    push_cast
    rw [pow24_mul]
    exact (lt_pow_fexp h).le
  have hr := roundHalfEven_mono hdiv
  rw [roundHalfEven_intCast] at hr
  have hr' : (roundHalfEven (q / ulp q) : ℚ) ≤ (16777216 : ℚ) := by
    exact_mod_cast hr
  calc rnd q = roundHalfEven (q / ulp q) * ulp q := rfl
    _ ≤ (16777216 : ℚ) * ulp q := mul_le_mul_of_nonneg_right hr' (ulp_pos q).le
    _ = (2 : ℚ) ^ (fexp q + 1) := by rw [ulp, pow24_mul]

/-- A positive value of the normal range rounds to at least the power of two
below it. -/
theorem pow_le_rnd {q : ℚ} (h : 0 < q) (hn : -126 < fexp q) : (2 : ℚ) ^ fexp q ≤ rnd q := by
  have hlog : fexp q = Int.log 2 q := by
    rw [fexp_of_ne h.ne', abs_of_pos h] at hn ⊢
    rcases le_total (Int.log 2 q) (-126) with hle | hle
    · rw [max_eq_right hle] at hn; omega
    · exact max_eq_left hle
  have hle : (2 : ℚ) ^ fexp q ≤ q := by
    rw [hlog]
    have := Int.zpow_log_le_self (b := 2) (by norm_num) h
    exact_mod_cast this
  have hdiv : ((8388608 : Int) : ℚ) ≤ q / ulp q := by
    rw [le_div_iff₀ (ulp_pos q), ulp]
    push_cast
    rw [pow23_mul]
    exact hle
  have hr := roundHalfEven_mono hdiv
  rw [roundHalfEven_intCast] at hr
  have hr' : (8388608 : ℚ) ≤ (roundHalfEven (q / ulp q) : ℚ) := by
    exact_mod_cast hr
  calc (2 : ℚ) ^ fexp q = (8388608 : ℚ) * ulp q := by rw [ulp, pow23_mul]
    _ ≤ roundHalfEven (q / ulp q) * ulp q := mul_le_mul_of_nonneg_right hr' (ulp_pos q).le
    _ = rnd q := rfl

/-- Rounding is monotone on non-negative values. -/
theorem rnd_mono {a b : ℚ} (ha : 0 ≤ a) (hab : a ≤ b) : rnd a ≤ rnd b := by
  rcases eq_or_lt_of_le ha with h0 | hpos
  · rw [← h0, rnd_zero]
    exact rnd_nonneg (ha.trans hab)
  · have hb : 0 < b := lt_of_lt_of_le hpos hab
    rcases eq_or_lt_of_le (fexp_mono hpos hab) with he | hlt
    · have hu : ulp a = ulp b := by rw [ulp, ulp, he]
      have hdiv : a / ulp a ≤ b / ulp b := by
        rw [hu]
        exact div_le_div_of_nonneg_right hab (ulp_pos b).le
      have hr : (roundHalfEven (a / ulp a) : ℚ) ≤ (roundHalfEven (b / ulp b) : ℚ) := by
        exact_mod_cast roundHalfEven_mono hdiv
      calc rnd a = roundHalfEven (a / ulp a) * ulp a := rfl
        _ = roundHalfEven (a / ulp a) * ulp b := by rw [hu]
        _ ≤ roundHalfEven (b / ulp b) * ulp b := mul_le_mul_of_nonneg_right hr (ulp_pos b).le
        _ = rnd b := rfl
    · have hn : -126 < fexp b := by
        have := fexp_ge a
        omega
      calc rnd a ≤ (2 : ℚ) ^ (fexp a + 1) := rnd_le_pow ha
        _ ≤ (2 : ℚ) ^ fexp b := zpow_le_zpow_right₀ (by norm_num) (by omega)
        _ ≤ rnd b := pow_le_rnd hb hn

/-- Every integer from `0` to `2^24` is a binary32 value: it rounds to
itself. -/
theorem rnd_intCast {w : Int} (h0 : 0 ≤ w) (h1 : w ≤ 16777216) : rnd (w : ℚ) = w := by
  rcases eq_or_lt_of_le h0 with hz | hpos
  · rw [← hz]; simpa using rnd_zero
  · have hq : (0 : ℚ) < w := by exact_mod_cast hpos
    have hone : (1 : ℚ) ≤ w := by exact_mod_cast hpos
    have hE0 : 0 ≤ Int.log 2 (w : ℚ) :=
      (Int.zpow_le_iff_le_log (by norm_num) hq).mp (by simpa using hone)
    have hE1 : Int.log 2 (w : ℚ) < 25 := by
      apply (Int.lt_zpow_iff_log_lt (by norm_num) hq).mp
      have : (w : ℚ) ≤ 16777216 := by exact_mod_cast h1
      norm_num
      linarith
    have hlo : (2 : ℚ) ^ Int.log 2 (w : ℚ) ≤ w := by
      have := Int.zpow_log_le_self (b := 2) (by norm_num) hq
      exact_mod_cast this
    have hfe : fexp (w : ℚ) = Int.log 2 (w : ℚ) := by
      rw [fexp_of_ne hq.ne', abs_of_pos hq]
      exact max_eq_left (by omega)
    obtain ⟨k, hk⟩ := Int.eq_ofNat_of_zero_le hE0
    rw [hk] at hlo hfe hE1
    rcases Nat.lt_or_ge k 24 with hk24 | hk24
    · obtain ⟨j, hj⟩ : ∃ j : ℕ, k + j = 23 := ⟨23 - k, by omega⟩
      have hexp : ((k : Int) - 23) = -(j : Int) := by omega
      refine rnd_exact (k : Int) (w * 2 ^ j) hfe ?_
      rw [hexp, zpow_neg, zpow_natCast]
      push_cast
      field_simp
    · have hk' : k = 24 := by omega
      subst hk'
      have hw : w = 16777216 := by
        have : (16777216 : ℚ) ≤ w := by
          have h2 : (2 : ℚ) ^ ((24 : ℕ) : Int) = 16777216 := by norm_num
          rw [h2] at hlo
          exact hlo
        have : (16777216 : Int) ≤ w := by exact_mod_cast this
        omega
      refine rnd_exact ((24 : ℕ) : Int) 8388608 hfe ?_
      rw [hw]
      norm_num

theorem rnd_one : rnd 1 = 1 := by
  have := rnd_intCast (w := 1) (by norm_num) (by norm_num)
  simpa using this

/-- A rounded value below `2^128` in magnitude is finite. -/
theorem round32_fin {q : ℚ} (h : |rnd q| < (2 : ℚ) ^ 128) : round32 q = float.fin (rnd q) := by
  rw [round32, if_neg (not_le.mpr h)]

/-- A non-negative value whose rounding is below `2^128` rounds to a finite
float. -/
theorem round32_fin_nonneg {q : ℚ} (h0 : 0 ≤ q) (h : rnd q < (2 : ℚ) ^ 128) :
    round32 q = float.fin (rnd q) :=
  round32_fin (by rw [abs_of_nonneg (rnd_nonneg h0)]; exact h)

/-- A binary32 value given by its exponent `E` and significand `m` rounds to
itself. -/
theorem round32_exact {q : ℚ} (E m : Int) (h1 : (2 : ℚ) ^ E ≤ |q|)
    (h2 : |q| < (2 : ℚ) ^ (E + 1)) (h3 : -126 ≤ E) (hm : q = m * (2 : ℚ) ^ (E - 23))
    (hfin : |q| < (2 : ℚ) ^ 128) : round32 q = float.fin q := by
  have hr : rnd q = q := rnd_exact E m (fexp_eq h1 h2 h3) hm
  have := round32_fin (q := q) (by rw [hr]; exact hfin)
  rw [hr] at this
  exact this

theorem round32_zero : round32 0 = float.fin 0 := by
  have := round32_fin (q := 0) (by rw [rnd_zero]; norm_num)
  rw [rnd_zero] at this
  exact this

/-- An `int` from `0` to `2^24` converts to float exactly. -/
theorem itof_exact {w : Int} (h0 : 0 ≤ w) (h1 : w ≤ 16777216) : itof w = float.fin w := by
  have hr := rnd_intCast h0 h1
  have hlt : ((w : ℚ)) < (2 : ℚ) ^ 128 := by
    have : (w : ℚ) ≤ 16777216 := by exact_mod_cast h1
    have h2 : (16777216 : ℚ) < (2 : ℚ) ^ 128 := by norm_num
    linarith
  have := round32_fin (q := (w : ℚ)) (by
    rw [hr, abs_of_nonneg (by exact_mod_cast h0)]; exact hlt)
  rw [hr] at this
  exact this

/-- A positive binary32 value given by its exponent `E` and significand `m`
rounds to itself. -/
theorem round32_exact_pos {q : ℚ} (E m : Int) (h1 : (2 : ℚ) ^ E ≤ q)
    (h2 : q < (2 : ℚ) ^ (E + 1)) (h3 : -126 ≤ E) (h4 : E ≤ 127)
    (hm : q = m * (2 : ℚ) ^ (E - 23)) : round32 q = float.fin q := by
  have hpos : 0 < q := lt_of_lt_of_le (zpow_pos (by norm_num) _) h1
  have hle : (2 : ℚ) ^ (E + 1) ≤ (2 : ℚ) ^ (128 : Int) :=
    zpow_le_zpow_right₀ (by norm_num) (by omega)
  have h128 : (2 : ℚ) ^ (128 : Int) = (2 : ℚ) ^ 128 := by norm_num
  refine round32_exact E m ?_ ?_ h3 hm ?_
  · rw [abs_of_pos hpos]; exact h1
  · rw [abs_of_pos hpos]; exact h2
  · rw [abs_of_pos hpos, ← h128]; exact lt_of_lt_of_le h2 hle

/-- A negative binary32 value given by its exponent `E` and significand `m`
rounds to itself. -/
theorem round32_exact_neg {q : ℚ} (E m : Int) (h1 : (2 : ℚ) ^ E ≤ -q)
    (h2 : -q < (2 : ℚ) ^ (E + 1)) (h3 : -126 ≤ E) (h4 : E ≤ 127)
    (hm : q = m * (2 : ℚ) ^ (E - 23)) : round32 q = float.fin q := by
  have hpos : 0 < -q := lt_of_lt_of_le (zpow_pos (by norm_num) _) h1
  have hneg : q < 0 := neg_pos.mp hpos
  have hle : (2 : ℚ) ^ (E + 1) ≤ (2 : ℚ) ^ (128 : Int) :=
    zpow_le_zpow_right₀ (by norm_num) (by omega)
  have h128 : (2 : ℚ) ^ (128 : Int) = (2 : ℚ) ^ 128 := by norm_num
  refine round32_exact E m ?_ ?_ h3 hm ?_
  · rw [abs_of_neg hneg]; exact h1
  · rw [abs_of_neg hneg]; exact h2
  · rw [abs_of_neg hneg, ← h128]; exact lt_of_lt_of_le h2 hle

/-! ## Lemmas on the conversion to int -/

theorem trunc_of_nonneg {q : ℚ} (h : 0 ≤ q) : trunc q = ⌊q⌋ := by
  simp [trunc, h]

theorem trunc_of_neg {q : ℚ} (h : q < 0) : trunc q = ⌈q⌉ := by
  simp [trunc, not_le.mpr h]

/-- Truncation sends the whole open interval `(-1, 1)` to `0`. -/
theorem trunc_eq_zero {q : ℚ} (h1 : -1 < q) (h2 : q < 1) : trunc q = 0 := by
  rcases le_or_lt 0 q with h | h
  · rw [trunc_of_nonneg h, Int.floor_eq_iff]
    constructor
    · simpa using h
    · simpa using h2
  · rw [trunc_of_neg h, Int.ceil_eq_iff]
    constructor
    · simpa using h1
    · simpa using h.le

/-- A conversion whose truncated value is a known `int`. -/
theorem ftoi_eval (undef : Int) {q : ℚ} {n : Int} (h : trunc q = n)
    (hmin : INT_MIN ≤ n) (hmax : n ≤ INT_MAX) : ftoi undef (float.fin q) = n := by
  simp only [ftoi, h]
  rw [if_pos ⟨hmin, hmax⟩]

/-- A finite float in `[0, K]` with `K` an `int` converts to its floor. -/
theorem ftoi_of_mem {q : ℚ} {K : Int} (undef : Int) (h0 : 0 ≤ q) (hK : q ≤ K)
    (hmax : K ≤ INT_MAX) : ftoi undef (float.fin q) = ⌊q⌋ := by
  have hfl : (0 : Int) ≤ ⌊q⌋ := Int.floor_nonneg.mpr h0
  have hfw : ⌊q⌋ ≤ K := by
    have : ⌊q⌋ ≤ ⌊(K : ℚ)⌋ := Int.floor_le_floor hK
    simpa using this
  have hmin : INT_MIN ≤ 0 := by decide
  exact ftoi_eval undef (trunc_of_nonneg h0) (le_trans hmin hfl) (le_trans hfw hmax)

/-! ## The float expression of one local of plotpoint -/

/-- The power `2^31` is a binary32 value. -/
theorem rnd_pow31 : rnd 2147483648 = 2147483648 :=
  rnd_exact 31 8388608 (fexp_eq (by norm_num) (by norm_num) (by norm_num)) (by norm_num)

/-- The largest binary32 value below `2^31`. -/
theorem rnd_below_pow31 : rnd 2147483520 = 2147483520 :=
  rnd_exact 30 16777215 (fexp_eq (by norm_num) (by norm_num) (by norm_num)) (by norm_num)

/-- An `int` size converts to a finite non-negative float of at most `2^31`. -/
theorem rnd_size {size : Int} (h0 : 0 ≤ size) (h1 : size ≤ INT_MAX) :
    0 ≤ rnd (size : ℚ) ∧ rnd (size : ℚ) ≤ 2147483648 := by
  have hq : (0 : ℚ) ≤ size := by exact_mod_cast h0
  have hle : (size : ℚ) ≤ 2147483648 := by
    have : size ≤ 2147483648 := by unfold INT_MAX at h1; omega
    exact_mod_cast this
  refine ⟨rnd_nonneg hq, ?_⟩
  have := rnd_mono hq hle
  rwa [rnd_pow31] at this

/-- A converted size that is at most the binary32 integer `K` stays at most
`K` after a second rounding. -/
theorem rnd_rnd_le {size K : Int} (h0 : 0 ≤ size) (hK : size ≤ K)
    (hKx : rnd (K : ℚ) = K) : rnd (rnd (size : ℚ)) ≤ K := by
  have hq : (0 : ℚ) ≤ size := by exact_mod_cast h0
  have h1 : rnd (size : ℚ) ≤ K := by
    have := rnd_mono hq (by exact_mod_cast hK : (size : ℚ) ≤ K)
    rwa [hKx] at this
  have := rnd_mono (rnd_nonneg hq) h1
  rwa [hKx] at this

/-- The quotient of the two rounded differences lies in `[0, 1]`. -/
theorem ratio_mem {n d : ℚ} (hn0 : 0 ≤ n) (hnd : n ≤ d) (hd : 0 < rnd d) :
    0 ≤ rnd (rnd n / rnd d) ∧ rnd (rnd n / rnd d) ≤ 1 := by
  have h0 : 0 ≤ rnd n / rnd d := div_nonneg (rnd_nonneg hn0) hd.le
  have h1 : rnd n / rnd d ≤ 1 := (div_le_one hd).mpr (rnd_mono hn0 hnd)
  refine ⟨rnd_nonneg h0, ?_⟩
  have := rnd_mono h0 h1
  rwa [rnd_one] at this

/-- The value `fcoord` of a local is non-negative and at most the size rounded
twice. -/
theorem fcoord_mem {n d : ℚ} {z : Int} (hn0 : 0 ≤ n) (hnd : n ≤ d) (hd : 0 < rnd d)
    (hs0 : 0 ≤ z) :
    0 ≤ fcoord n d z ∧ fcoord n d z ≤ rnd (rnd (z : ℚ)) := by
  obtain ⟨hr0, hr1⟩ := ratio_mem hn0 hnd hd
  have hs : 0 ≤ rnd (z : ℚ) := rnd_nonneg (by exact_mod_cast hs0)
  have hp0 : 0 ≤ rnd (rnd n / rnd d) * rnd (z : ℚ) := mul_nonneg hr0 hs
  have hp1 : rnd (rnd n / rnd d) * rnd (z : ℚ) ≤ rnd (z : ℚ) := by
    calc rnd (rnd n / rnd d) * rnd (z : ℚ) ≤ 1 * rnd (z : ℚ) :=
          mul_le_mul_of_nonneg_right hr1 hs
      _ = rnd (z : ℚ) := one_mul _
  exact ⟨rnd_nonneg hp0, rnd_mono hp0 hp1⟩

/-- With a finite non-zero span and a numerator in `[0, span]`, no step of the
float expression overflows: its value is the finite float `fcoord`. -/
theorem coord_expr {a b l u : ℚ} {z : Int} (hn0 : 0 ≤ a - b) (hnd : a - b ≤ u - l)
    (hspan : FiniteSpan l u) (hs0 : 0 ≤ z) (hs1 : z ≤ INT_MAX) :
    fmul (fdiv (fsub (float.fin a) (float.fin b)) (fsub (float.fin u) (float.fin l)))
        (itof z)
      = float.fin (fcoord (a - b) (u - l) z) := by
  obtain ⟨hd0, hd1⟩ := hspan
  have hn1 : rnd (a - b) ≤ rnd (u - l) := rnd_mono hn0 hnd
  have e1 : fsub (float.fin a) (float.fin b) = float.fin (rnd (a - b)) :=
    round32_fin_nonneg hn0 (lt_of_le_of_lt hn1 hd1)
  have e2 : fsub (float.fin u) (float.fin l) = float.fin (rnd (u - l)) :=
    round32_fin_nonneg (hn0.trans hnd) hd1
  obtain ⟨hr0, hr1⟩ := ratio_mem hn0 hnd hd0
  have hq0 : 0 ≤ rnd (a - b) / rnd (u - l) := div_nonneg (rnd_nonneg hn0) hd0.le
  have h128 : (2147483648 : ℚ) < (2 : ℚ) ^ 128 := by norm_num
  have e3 : fdiv (float.fin (rnd (a - b))) (float.fin (rnd (u - l)))
      = float.fin (rnd (rnd (a - b) / rnd (u - l))) := by
    simp only [fdiv]
    rw [if_neg hd0.ne']
    exact round32_fin_nonneg hq0 (lt_of_le_of_lt hr1 (by norm_num))
  obtain ⟨hs, hs'⟩ := rnd_size hs0 hs1
  have e4 : itof z = float.fin (rnd (z : ℚ)) :=
    round32_fin_nonneg (by exact_mod_cast hs0) (lt_of_le_of_lt hs' h128)
  obtain ⟨_, hc1⟩ := fcoord_mem (z := z) hn0 hnd hd0 hs0
  have hrr : rnd (rnd (z : ℚ)) ≤ 2147483648 := by
    have := rnd_mono hs hs'
    rwa [rnd_pow31] at this
  have e5 : fmul (float.fin (rnd (rnd (a - b) / rnd (u - l)))) (float.fin (rnd (z : ℚ)))
      = float.fin (fcoord (a - b) (u - l) z) :=
    round32_fin_nonneg (mul_nonneg hr0 hs) (lt_of_le_of_lt (hc1.trans hrr) h128)
  rw [e1, e2, e3, e4, e5]

/-- The local of `plotpoint` for a numerator in `[0, span]`: the floor of
`fcoord`, between `0` and any binary32 integer `K` that bounds the size. -/
theorem coord_local (undef : Int) {a b l u : ℚ} {z K : Int} (hn0 : 0 ≤ a - b)
    (hnd : a - b ≤ u - l) (hspan : FiniteSpan l u) (hs0 : 0 ≤ z) (hsK : z ≤ K)
    (hKx : rnd (K : ℚ) = K) (hK : K ≤ INT_MAX) :
    ftoi undef (fmul (fdiv (fsub (float.fin a) (float.fin b))
        (fsub (float.fin u) (float.fin l))) (itof z))
      = ⌊fcoord (a - b) (u - l) z⌋ ∧
    0 ≤ ⌊fcoord (a - b) (u - l) z⌋ ∧ ⌊fcoord (a - b) (u - l) z⌋ ≤ K := by
  obtain ⟨hc0, hc1⟩ := fcoord_mem (z := z) hn0 hnd hspan.1 hs0
  have hcK : fcoord (a - b) (u - l) z ≤ K := hc1.trans (rnd_rnd_le hs0 hsK hKx)
  rw [coord_expr hn0 hnd hspan hs0 (hsK.trans hK)]
  refine ⟨ftoi_of_mem undef hc0 hcK hK, Int.floor_nonneg.mpr hc0, ?_⟩
  have : ⌊fcoord (a - b) (u - l) z⌋ ≤ ⌊(K : ℚ)⌋ := Int.floor_le_floor hcK
  simpa using this

/-- At a zero numerator the value of the expression is `0`. -/
theorem fcoord_zero (d : ℚ) (size : Int) : fcoord 0 d size = 0 := by
  simp [fcoord, rnd_zero]

/-- At a numerator equal to the span the value of the expression is the size,
when the size is at most `2^24`. -/
theorem fcoord_span {d : ℚ} {size : Int} (hd : 0 < rnd d) (hs0 : 0 ≤ size)
    (hs1 : size ≤ 16777216) : fcoord d d size = size := by
  rw [fcoord, div_self hd.ne', rnd_one, one_mul, rnd_intCast hs0 hs1, rnd_intCast hs0 hs1]

/-- The value of the expression is monotone in the numerator. -/
theorem fcoord_mono {n1 n2 d : ℚ} {size : Int} (h0 : 0 ≤ n1) (h12 : n1 ≤ n2) (hd : 0 < rnd d)
    (hs0 : 0 ≤ size) : fcoord n1 d size ≤ fcoord n2 d size := by
  have hs : 0 ≤ rnd (size : ℚ) := rnd_nonneg (by exact_mod_cast hs0)
  have hq0 : 0 ≤ rnd n1 / rnd d := div_nonneg (rnd_nonneg h0) hd.le
  have hq : rnd n1 / rnd d ≤ rnd n2 / rnd d :=
    div_le_div_of_nonneg_right (rnd_mono h0 h12) hd.le
  exact rnd_mono (mul_nonneg (rnd_nonneg hq0) hs)
    (mul_le_mul_of_nonneg_right (rnd_mono hq0 hq) hs)

/-! ## Binary32 bounds have a non-zero difference -/

/-- A fixed point of the rounding is an integer multiple of `2^-149`. -/
theorem binary32_multiple {q : ℚ} (h : rnd q = q) :
    ∃ k : Int, q = k * (2 : ℚ) ^ (-149 : Int) := by
  obtain ⟨j, hj⟩ := Int.eq_ofNat_of_zero_le (a := fexp q + 126) (by have := fexp_ge q; omega)
  refine ⟨roundHalfEven (q / ulp q) * 2 ^ j, ?_⟩
  have he : fexp q - 23 = (j : Int) + (-149) := by omega
  have hu : ulp q = (2 : ℚ) ^ j * (2 : ℚ) ^ (-149 : Int) := by
    rw [ulp, he, zpow_add₀ (by norm_num : (2 : ℚ) ≠ 0), zpow_natCast]
  calc q = rnd q := h.symm
    _ = roundHalfEven (q / ulp q) * ulp q := rfl
    _ = ((roundHalfEven (q / ulp q) * 2 ^ j : Int) : ℚ) * (2 : ℚ) ^ (-149 : Int) := by
      rw [hu]; push_cast; ring

/-- The smallest positive binary32 value. -/
theorem rnd_min_subnormal : rnd ((2 : ℚ) ^ (-149 : Int)) = (2 : ℚ) ^ (-149 : Int) := by
  have hpos : (0 : ℚ) < (2 : ℚ) ^ (-149 : Int) := zpow_pos (by norm_num) _
  refine rnd_exact (-126) 1 (fexp_subnormal ?_) (by norm_num)
  rw [abs_of_pos hpos]
  exact zpow_lt_zpow_right₀ (by norm_num) (by norm_num)

/-- For binary32 values `lo < hi` whose difference does not overflow, the
float difference `hi - lo` is finite and not zero. -/
theorem finiteSpan_of_binary32 {lo hi : ℚ} (hlo : rnd lo = lo) (hhi : rnd hi = hi)
    (hlt : lo < hi) (hfin : rnd (hi - lo) < (2 : ℚ) ^ 128) : FiniteSpan lo hi := by
  obtain ⟨a, ha⟩ := binary32_multiple hlo
  obtain ⟨b, hb⟩ := binary32_multiple hhi
  have hpos : (0 : ℚ) < (2 : ℚ) ^ (-149 : Int) := zpow_pos (by norm_num) _
  have hab : a < b := by
    have : (a : ℚ) * (2 : ℚ) ^ (-149 : Int) < b * (2 : ℚ) ^ (-149 : Int) := by
      rw [← ha, ← hb]; exact hlt
    have := lt_of_mul_lt_mul_right this hpos.le
    exact_mod_cast this
  have hge : (2 : ℚ) ^ (-149 : Int) ≤ hi - lo := by
    have h1 : (1 : ℚ) ≤ (b : ℚ) - a := by
      have : (1 : Int) ≤ b - a := by omega
      exact_mod_cast this
    calc (2 : ℚ) ^ (-149 : Int) = 1 * (2 : ℚ) ^ (-149 : Int) := (one_mul _).symm
      _ ≤ ((b : ℚ) - a) * (2 : ℚ) ^ (-149 : Int) := mul_le_mul_of_nonneg_right h1 hpos.le
      _ = hi - lo := by rw [ha, hb]; ring
  have := rnd_mono hpos.le hge
  rw [rnd_min_subnormal] at this
  exact ⟨lt_of_lt_of_le hpos this, hfin⟩

/-! ## The guard of plotpoint -/

/-- When the guard of `plotpoint` holds, no `setpixel` call is made. -/
theorem plotpoint_dropped {σ : Type} (undef : Int × Int)
    (setpixel : pixelmap → Int → Int → Nat → σ → σ) (g : graph) (x y : ℚ)
    (value : Nat) (mem : σ)
    (h : (plotcoords undef g x y).1 < 0 ∨ (plotcoords undef g x y).2 < 0 ∨
      (plotcoords undef g x y).1 ≥ g.pixelmap.width ∨
      (plotcoords undef g x y).2 ≥ g.pixelmap.height) :
    plotpoint undef setpixel g x y value mem = mem := by
  simp only [plotpoint]
  rw [if_pos h]

/-- When the guard of `plotpoint` fails, exactly one `setpixel` call is made,
at the two locals. -/
theorem plotpoint_written {σ : Type} (undef : Int × Int)
    (setpixel : pixelmap → Int → Int → Nat → σ → σ) (g : graph) (x y : ℚ)
    (value : Nat) (mem : σ)
    (h : ¬ ((plotcoords undef g x y).1 < 0 ∨ (plotcoords undef g x y).2 < 0 ∨
      (plotcoords undef g x y).1 ≥ g.pixelmap.width ∨
      (plotcoords undef g x y).2 ≥ g.pixelmap.height)) :
    plotpoint undef setpixel g x y value mem
      = setpixel g.pixelmap (plotcoords undef g x y).1 (plotcoords undef g x y).2 value mem := by
  simp only [plotpoint]
  rw [if_neg h]

/-! ## The locals of plotpoint inside the domain -/

/-- The column computed for `xmin ≤ x ≤ xmax`: the floor of `fcoord`, between
`0` and any binary32 integer `K` that bounds the width. -/
theorem coordx_in_domain (undef : Int × Int) (g : graph) (hg : Configured g)
    (hs : FiniteSpans g) {K : Int} (hwK : g.pixelmap.width ≤ K) (hKx : rnd (K : ℚ) = K)
    (hK : K ≤ INT_MAX) (x y : ℚ) (h1 : g.xmin ≤ x) (h2 : x ≤ g.xmax) :
    (plotcoords undef g x y).1 = ⌊fcoord (x - g.xmin) (g.xmax - g.xmin) g.pixelmap.width⌋ ∧
    0 ≤ (plotcoords undef g x y).1 ∧ (plotcoords undef g x y).1 ≤ K := by
  have h := coord_local undef.1 (a := x) (b := g.xmin) (l := g.xmin) (u := g.xmax)
    (sub_nonneg.mpr h1) (by linarith) hs.1 hg.2.2.1.le hwK hKx hK
  simp only [plotcoords]
  rw [h.1]
  exact ⟨rfl, h.2.1, h.2.2⟩

/-- The row computed for `ymin ≤ y ≤ ymax`: the floor of `fcoord`, between `0`
and any binary32 integer `K` that bounds the height. -/
theorem coordy_in_domain (undef : Int × Int) (g : graph) (hg : Configured g)
    (hs : FiniteSpans g) {K : Int} (hhK : g.pixelmap.height ≤ K) (hKx : rnd (K : ℚ) = K)
    (hK : K ≤ INT_MAX) (x y : ℚ) (h1 : g.ymin ≤ y) (h2 : y ≤ g.ymax) :
    (plotcoords undef g x y).2 = ⌊fcoord (g.ymax - y) (g.ymax - g.ymin) g.pixelmap.height⌋ ∧
    0 ≤ (plotcoords undef g x y).2 ∧ (plotcoords undef g x y).2 ≤ K := by
  have h := coord_local undef.2 (a := g.ymax) (b := y) (l := g.ymin) (u := g.ymax)
    (sub_nonneg.mpr h2) (by linarith) hs.2 hg.2.2.2.2.1.le hhK hKx hK
  simp only [plotcoords]
  rw [h.1]
  exact ⟨rfl, h.2.1, h.2.2⟩

/-- The bound `2^24` on the sizes is an `int`. -/
theorem pow24_le_INT_MAX : (16777216 : Int) ≤ INT_MAX := by decide

/-- The integer `2^24` is a binary32 value. -/
theorem rnd_pow24 : rnd ((16777216 : Int) : ℚ) = (16777216 : Int) :=
  rnd_intCast (by norm_num) le_rfl

/-- The column at `x = xmin` is `0`. -/
theorem coordx_xmin (undef : Int × Int) (g : graph) (hg : Configured g) (hs : FiniteSpans g)
    (y : ℚ) : (plotcoords undef g g.xmin y).1 = 0 := by
  have h := coord_expr (a := g.xmin) (b := g.xmin) (l := g.xmin) (u := g.xmax)
    (z := g.pixelmap.width) (by simp) (by linarith [hg.1]) hs.1 hg.2.2.1.le hg.2.2.2.1
  simp only [plotcoords]
  rw [h, sub_self, fcoord_zero]
  exact ftoi_eval undef.1 (trunc_of_nonneg le_rfl |>.trans (by simp)) (by decide) (by decide)

/-- The row at `y = ymax` is `0`. -/
theorem coordy_ymax (undef : Int × Int) (g : graph) (hg : Configured g) (hs : FiniteSpans g)
    (x : ℚ) : (plotcoords undef g x g.ymax).2 = 0 := by
  have h := coord_expr (a := g.ymax) (b := g.ymax) (l := g.ymin) (u := g.ymax)
    (z := g.pixelmap.height) (by simp) (by linarith [hg.2.1]) hs.2 hg.2.2.2.2.1.le
    hg.2.2.2.2.2
  simp only [plotcoords]
  rw [h, sub_self, fcoord_zero]
  exact ftoi_eval undef.2 (trunc_of_nonneg le_rfl |>.trans (by simp)) (by decide) (by decide)

/-- The column at `x = xmax` is the width, when the width is at most `2^24`. -/
theorem coordx_xmax (undef : Int × Int) (g : graph) (hg : Configured g) (hs : FiniteSpans g)
    (hw : g.pixelmap.width ≤ 16777216) (y : ℚ) :
    (plotcoords undef g g.xmax y).1 = g.pixelmap.width := by
  have h := coordx_in_domain undef g hg hs hw rnd_pow24 pow24_le_INT_MAX g.xmax y hg.1.le le_rfl
  rw [h.1, fcoord_span hs.1.1 hg.2.2.1.le hw]
  simp

/-- The row at `y = ymin` is the height, when the height is at most `2^24`. -/
theorem coordy_ymin (undef : Int × Int) (g : graph) (hg : Configured g) (hs : FiniteSpans g)
    (hh : g.pixelmap.height ≤ 16777216) (x : ℚ) :
    (plotcoords undef g x g.ymin).2 = g.pixelmap.height := by
  have h := coordy_in_domain undef g hg hs hh rnd_pow24 pow24_le_INT_MAX x g.ymin le_rfl hg.2.1.le
  rw [h.1, fcoord_span hs.2.1 hg.2.2.2.2.1.le hh]
  simp

/-! ## Evaluation of the float expression on concrete inputs -/

/-- An exact result equal to an integer from `0` to `2^24` rounds to it. -/
theorem round32_int {q : ℚ} (w : Int) (hq : q = w) (h0 : 0 ≤ w) (h1 : w ≤ 16777216) :
    round32 q = float.fin w := by
  rw [hq]; exact itof_exact h0 h1

/-- An exact result equal to the positive binary32 value `v` rounds to it. -/
theorem round32_val_pos {q v : ℚ} (E m : Int) (hq : q = v) (h1 : (2 : ℚ) ^ E ≤ v)
    (h2 : v < (2 : ℚ) ^ (E + 1)) (h3 : -126 ≤ E) (h4 : E ≤ 127)
    (hm : v = m * (2 : ℚ) ^ (E - 23)) : round32 q = float.fin v := by
  rw [hq]; exact round32_exact_pos E m h1 h2 h3 h4 hm

/-- An exact result equal to the negative binary32 value `v` rounds to it. -/
theorem round32_val_neg {q v : ℚ} (E m : Int) (hq : q = v) (h1 : (2 : ℚ) ^ E ≤ -v)
    (h2 : -v < (2 : ℚ) ^ (E + 1)) (h3 : -126 ≤ E) (h4 : E ≤ 127)
    (hm : v = m * (2 : ℚ) ^ (E - 23)) : round32 q = float.fin v := by
  rw [hq]; exact round32_exact_neg E m h1 h2 h3 h4 hm

/-- The float expression of one local when every step is finite: the two
differences `n` and `d`, the quotient `r`, the converted size `s`, the product
`p` and its truncation `k`. -/
theorem chain_eval (undef : Int) {a b lo hi n d r s p : ℚ} {size k : Int}
    (h1 : round32 (a - b) = float.fin n) (h2 : round32 (hi - lo) = float.fin d) (hd : d ≠ 0)
    (h3 : round32 (n / d) = float.fin r) (h4 : round32 (size : ℚ) = float.fin s)
    (h5 : round32 (r * s) = float.fin p) (h6 : trunc p = k)
    (hmin : INT_MIN ≤ k) (hmax : k ≤ INT_MAX) :
    ftoi undef (fmul (fdiv (fsub (float.fin a) (float.fin b))
      (fsub (float.fin hi) (float.fin lo))) (itof size)) = k := by
  have e1 : fsub (float.fin a) (float.fin b) = float.fin n := h1
  have e2 : fsub (float.fin hi) (float.fin lo) = float.fin d := h2
  have e3 : fdiv (float.fin n) (float.fin d) = float.fin r := by
    simp only [fdiv]; rw [if_neg hd]; exact h3
  have e4 : itof size = float.fin s := h4
  have e5 : fmul (float.fin r) (float.fin s) = float.fin p := h5
  rw [e1, e2, e3, e4, e5]
  exact ftoi_eval undef h6 hmin hmax

/-- The floor of an integer, as a truncation. -/
theorem trunc_intCast (k : Int) (h : 0 ≤ k) : trunc (k : ℚ) = k := by
  rw [trunc_of_nonneg (by exact_mod_cast h)]; simp

/-- On the unit graph: the local for a numerator of `-1/8` is `0`. -/
theorem unit_chain_neg_eighth (undef : Int) {a b : ℚ} (hab : a - b = -1 / 8) :
    ftoi undef (fmul (fdiv (fsub (float.fin a) (float.fin b))
      (fsub (float.fin 1) (float.fin 0))) (itof 4)) = 0 :=
  chain_eval undef (n := -1 / 8) (d := 1) (r := -1 / 8) (s := ((4 : Int) : ℚ)) (p := -1 / 2)
    (round32_val_neg (-3) (-8388608) hab (by norm_num) (by norm_num) (by norm_num)
      (by norm_num) (by norm_num))
    (round32_int 1 (by norm_num) (by norm_num) (by norm_num)) (by norm_num)
    (round32_val_neg (-3) (-8388608) (by norm_num) (by norm_num) (by norm_num) (by norm_num)
      (by norm_num) (by norm_num))
    (round32_int 4 (by norm_num) (by norm_num) (by norm_num))
    (round32_val_neg (-1) (-8388608) (by norm_num) (by norm_num) (by norm_num) (by norm_num)
      (by norm_num) (by norm_num))
    (trunc_eq_zero (by norm_num) (by norm_num)) (by decide) (by decide)

/-- On the unit graph: the local for a numerator of `1/2` is `2`. -/
theorem unit_chain_half (undef : Int) {a b : ℚ} (hab : a - b = 1 / 2) :
    ftoi undef (fmul (fdiv (fsub (float.fin a) (float.fin b))
      (fsub (float.fin 1) (float.fin 0))) (itof 4)) = 2 :=
  chain_eval undef (n := 1 / 2) (d := 1) (r := 1 / 2) (s := ((4 : Int) : ℚ))
    (p := ((2 : Int) : ℚ))
    (round32_val_pos (-1) 8388608 hab (by norm_num) (by norm_num) (by norm_num)
      (by norm_num) (by norm_num))
    (round32_int 1 (by norm_num) (by norm_num) (by norm_num)) (by norm_num)
    (round32_val_pos (-1) 8388608 (by norm_num) (by norm_num) (by norm_num) (by norm_num)
      (by norm_num) (by norm_num))
    (round32_int 4 (by norm_num) (by norm_num) (by norm_num))
    (round32_int 2 (by norm_num) (by norm_num) (by norm_num))
    (trunc_intCast 2 (by norm_num)) (by decide) (by decide)

/-- The unit graph is configured. -/
theorem unitgraph_configured : Configured unitgraph := by
  norm_num [Configured, unitgraph, INT_MAX]

/-- The locals of `plotpoint` on the unit graph at `(-1/8, 1/2)`, a point left
of `xmin` by half a pixel. -/
theorem unit_left_strip_coords (undef : Int × Int) :
    plotcoords undef unitgraph (-1/8) (1/2) = (0, 2) := by
  simp only [plotcoords, unitgraph]
  rw [unit_chain_neg_eighth undef.1 (by norm_num), unit_chain_half undef.2 (by norm_num)]

/-- The locals of `plotpoint` on the unit graph at `(1/2, 9/8)`, a point above
`ymax` by half a pixel. -/
theorem unit_top_strip_coords (undef : Int × Int) :
    plotcoords undef unitgraph (1/2) (9/8) = (2, 0) := by
  simp only [plotcoords, unitgraph]
  rw [unit_chain_half undef.1 (by norm_num), unit_chain_neg_eighth undef.2 (by norm_num)]

/-! ## C1, C3: truncation toward zero next to the left and top edges -/

/-- C1, evaluated at the failing input.  On the configured 4 x 4 unit graph, at
the point `(-1/8, 1/2)`, the floors of the specification are column `-1` and
row `2`: the column is out of range, so the claim has no `setpixel` call.
`plotpoint` truncates `-1/2` to `0` and calls `setpixel` once, at `(0, 2)`. -/
theorem plotpoint_floor_divergence (undef : Int × Int) :
    Configured unitgraph ∧
    specPixelX unitgraph (-1/8) = -1 ∧ specPixelY unitgraph (1/2) = 2 ∧
    plotpoint undef recordpixel unitgraph (-1/8) (1/2) 7 [] = [(0, 2, 7)] := by
  refine ⟨unitgraph_configured, ?_, ?_, ?_⟩
  · rw [specPixelX, Int.floor_eq_iff]; norm_num [unitgraph]
  · rw [specPixelY, Int.floor_eq_iff]; norm_num [unitgraph]
  · rw [plotpoint_written]
    · rw [unit_left_strip_coords]; rfl
    · rw [unit_left_strip_coords]; decide

/-- C3, evaluated at the failing input.  On the configured 4 x 4 unit graph the
point `(1/2, 9/8)` lies outside the domain rectangle (`9/8 > ymax = 1`), and
`plotpoint` still calls `setpixel` once, at `(2, 0)`: the real row `-1/2` is
truncated to `0`. -/
theorem plotpoint_writes_above_ymax (undef : Int × Int) :
    Configured unitgraph ∧ unitgraph.ymax < 9/8 ∧
    plotpoint undef recordpixel unitgraph (1/2) (9/8) 7 [] = [(2, 0, 7)] := by
  refine ⟨unitgraph_configured, by norm_num [unitgraph], ?_⟩
  rw [plotpoint_written]
  · rw [unit_top_strip_coords]; rfl
  · rw [unit_top_strip_coords]; decide

/-! ## The example graphs -/

/-- A positive value `m * 2^(E-23)` of the normal range is a fixed point of the
rounding. -/
theorem rnd_exact_pos {q : ℚ} (E m : Int) (h1 : (2 : ℚ) ^ E ≤ q) (h2 : q < (2 : ℚ) ^ (E + 1))
    (h3 : -126 ≤ E) (hm : q = m * (2 : ℚ) ^ (E - 23)) : rnd q = q := by
  have hpos : 0 < q := lt_of_lt_of_le (zpow_pos (by norm_num) _) h1
  exact rnd_exact E m (fexp_eq (by rwa [abs_of_pos hpos]) (by rwa [abs_of_pos hpos]) h3) hm

/-- The float difference `1 - 0` is finite and not zero. -/
theorem unit_span : FiniteSpan 0 1 := by
  unfold FiniteSpan
  rw [sub_zero, rnd_one]
  norm_num

theorem unitgraph_spans : FiniteSpans unitgraph := ⟨unit_span, unit_span⟩

theorem widegraph_configured : Configured widegraph := by
  norm_num [Configured, widegraph, INT_MAX]

theorem widegraph_spans : FiniteSpans widegraph := ⟨unit_span, unit_span⟩

/-- The test graph is configured for every positive half-width `a`. -/
theorem testgraph_configured (a : ℚ) (ha : 0 < a) : Configured (testgraph a) := by
  refine ⟨?_, ?_, ?_, ?_, ?_, ?_⟩ <;> norm_num [testgraph, INT_MAX]
  linarith

theorem twopi_pos : 0 < twopi := by norm_num [twopi]

/-- On the test graph with `a = twopi` both float differences are finite and
not zero: `2 * twopi` and `4` are binary32 values. -/
theorem testgraph_spans : FiniteSpans (testgraph twopi) := by
  have hx : rnd (twopi - -twopi) = 13176795 / 1048576 := by
    have e : twopi - -twopi = 13176795 / 1048576 := by norm_num [twopi]
    rw [e]
    exact rnd_exact_pos 3 13176795 (by norm_num) (by norm_num) (by norm_num) (by norm_num)
  have hy : rnd ((2 : ℚ) - -2) = 4 := by
    have e : (2 : ℚ) - -2 = ((4 : Int) : ℚ) := by norm_num
    rw [e, rnd_intCast (by norm_num) (by norm_num)]
    norm_num
  refine ⟨?_, ?_⟩
  · show 0 < rnd (twopi - -twopi) ∧ rnd (twopi - -twopi) < (2 : ℚ) ^ 128
    rw [hx]; norm_num
  · show 0 < rnd ((2 : ℚ) - -2) ∧ rnd ((2 : ℚ) - -2) < (2 : ℚ) ^ 128
    rw [hy]; norm_num

/-- The `int` `2^24 + 1` converts to the float `2^24`: it lies half way
between the binary32 values `2^24` and `2^24 + 2`, and the tie goes to the even
significand. -/
theorem itof_wide : itof 16777217 = float.fin 16777216 := by
  have hE : fexp ((16777217 : Int) : ℚ) = 24 :=
    fexp_eq (by norm_num) (by norm_num) (by norm_num)
  have hm : roundHalfEven (((16777217 : Int) : ℚ) / (2 : ℚ) ^ ((24 : Int) - 23)) = 8388608 :=
    roundHalfEven_tie_even 8388608 (by norm_num) (by decide)
  have hr : rnd ((16777217 : Int) : ℚ) = 16777216 := by
    rw [rnd_of_fexp hE hm]; norm_num
  have := round32_fin (q := ((16777217 : Int) : ℚ)) (by rw [hr]; norm_num)
  rw [hr] at this
  exact this

/-- The locals of `plotpoint` on the wide graph at the top-right corner. -/
theorem widegraph_corner_coords (undef : Int × Int) :
    plotcoords undef widegraph 1 1 = (16777216, 0) := by
  have hx : ftoi undef.1 (fmul (fdiv (fsub (float.fin 1) (float.fin 0))
      (fsub (float.fin 1) (float.fin 0))) (itof 16777217)) = 16777216 :=
    chain_eval undef.1 (n := ((1 : Int) : ℚ)) (d := ((1 : Int) : ℚ)) (r := ((1 : Int) : ℚ))
      (s := 16777216) (p := ((16777216 : Int) : ℚ))
      (round32_int 1 (by norm_num) (by norm_num) (by norm_num))
      (round32_int 1 (by norm_num) (by norm_num) (by norm_num))
      (by norm_num)
      (round32_int 1 (by norm_num) (by norm_num) (by norm_num))
      itof_wide
      (round32_int 16777216 (by norm_num) (by norm_num) (by norm_num))
      (trunc_intCast 16777216 (by norm_num)) (by decide) (by decide)
  have hy := coordy_ymax undef widegraph widegraph_configured widegraph_spans 1
  refine Prod.ext ?_ hy
  simp only [plotcoords, widegraph]
  exact hx

/-- The float `2^128` does not exist: the exact result `2^128` rounds to
infinity. -/
theorem round32_pow128 {q : ℚ} (hq : q = 340282366920938463463374607431768211456) :
    round32 q = float.inf false := by
  have hr : rnd q = 340282366920938463463374607431768211456 := by
    rw [hq]
    exact rnd_exact_pos 128 8388608 (by norm_num) (by norm_num) (by norm_num) (by norm_num)
  rw [round32, hr, if_pos (by norm_num)]
  rw [hq]
  simp

theorem hugegraph_configured : Configured hugegraph := by
  norm_num [Configured, hugegraph, INT_MAX]

/-- The columns of `plotpoint` on the huge graph at `x = xmin` and at
`x = xmax`: the span is infinite, `0 / inf` is `0` and `inf / inf` is a NaN,
whose conversion to `int` is undefined. -/
theorem hugegraph_columns (undef : Int × Int) (y : ℚ) :
    (plotcoords undef hugegraph hugegraph.xmin y).1 = 0 ∧
    (plotcoords undef hugegraph hugegraph.xmax y).1 = undef.1 := by
  have hd : fsub (float.fin 170141183460469231731687303715884105728)
      (float.fin (-170141183460469231731687303715884105728)) = float.inf false :=
    round32_pow128 (by norm_num)
  have hn : fsub (float.fin (-170141183460469231731687303715884105728))
      (float.fin (-170141183460469231731687303715884105728)) = float.fin 0 := by
    show round32 _ = _
    rw [sub_self]; exact round32_zero
  have h4 : itof 4 = float.fin 4 := by
    have := itof_exact (w := 4) (by norm_num) (by norm_num)
    simpa using this
  constructor
  · simp only [plotcoords, hugegraph]
    rw [hn, hd, h4]
    have : fmul (fdiv (float.fin 0) (float.inf false)) (float.fin 4) = float.fin 0 := by
      show round32 (0 * 4) = _
      rw [zero_mul]; exact round32_zero
    rw [this]
    exact ftoi_eval undef.1 (trunc_eq_zero (by norm_num) (by norm_num)) (by decide) (by decide)
  · simp only [plotcoords, hugegraph]
    rw [hd, h4]
    rfl

/-! ## C2: the guard -/

/-- C2.  For every graph state (degenerate and inverted bounds included), every
point, every value and whatever an undefined conversion delivers: either the
two locals are inside `[0, width) x [0, height)` and `plotpoint` is exactly one
`setpixel` call at them, or they are outside and `plotpoint` leaves the memory
as it is for every `setpixel`.  The log of calls has at most one entry, and
every entry is inside the rectangle. -/
theorem plotpoint_guarded (undef : Int × Int) (g : graph) (x y : ℚ) (value : Nat) :
    (((0 ≤ (plotcoords undef g x y).1 ∧ (plotcoords undef g x y).1 < g.pixelmap.width ∧
        0 ≤ (plotcoords undef g x y).2 ∧ (plotcoords undef g x y).2 < g.pixelmap.height) ∧
      ∀ (σ : Type) (setpixel : pixelmap → Int → Int → Nat → σ → σ) (mem : σ),
        plotpoint undef setpixel g x y value mem
          = setpixel g.pixelmap (plotcoords undef g x y).1 (plotcoords undef g x y).2 value mem)
     ∨
     (¬ (0 ≤ (plotcoords undef g x y).1 ∧ (plotcoords undef g x y).1 < g.pixelmap.width ∧
        0 ≤ (plotcoords undef g x y).2 ∧ (plotcoords undef g x y).2 < g.pixelmap.height) ∧
      ∀ (σ : Type) (setpixel : pixelmap → Int → Int → Nat → σ → σ) (mem : σ),
        plotpoint undef setpixel g x y value mem = mem)) ∧
    (plotpoint undef recordpixel g x y value []).length ≤ 1 ∧
    ∀ c ∈ plotpoint undef recordpixel g x y value [],
      0 ≤ c.1 ∧ c.1 < g.pixelmap.width ∧ 0 ≤ c.2.1 ∧ c.2.1 < g.pixelmap.height := by
  by_cases h : (plotcoords undef g x y).1 < 0 ∨ (plotcoords undef g x y).2 < 0 ∨
      (plotcoords undef g x y).1 ≥ g.pixelmap.width ∨
      (plotcoords undef g x y).2 ≥ g.pixelmap.height
  · refine ⟨Or.inr ⟨?_, fun σ setpixel mem => plotpoint_dropped undef setpixel g x y value mem h⟩,
      ?_, ?_⟩
    · rintro ⟨h1, h2, h3, h4⟩
      rcases h with h | h | h | h <;> omega
    · rw [plotpoint_dropped undef recordpixel g x y value [] h]; simp
    · rw [plotpoint_dropped undef recordpixel g x y value [] h]; simp
  · have hin : 0 ≤ (plotcoords undef g x y).1 ∧ (plotcoords undef g x y).1 < g.pixelmap.width ∧
        0 ≤ (plotcoords undef g x y).2 ∧ (plotcoords undef g x y).2 < g.pixelmap.height := by
      push_neg at h
      omega
    refine ⟨Or.inl ⟨hin, fun σ setpixel mem => plotpoint_written undef setpixel g x y value mem h⟩,
      ?_, ?_⟩
    · rw [plotpoint_written undef recordpixel g x y value [] h]; simp [recordpixel]
    · rw [plotpoint_written undef recordpixel g x y value [] h]
      intro c hc
      simp only [recordpixel, List.nil_append, List.mem_singleton] at hc
      subst hc
      exact hin

/-! ## C4: which domain points are written -/

/-- C5 as stated fails.  On the configured huge graph, whose float difference
`xmax - xmin` overflows, with an undefined conversion that delivers `INT_MIN`:
the column at `x = xmin` is `0` and the column at `x = xmax` is `INT_MIN`, so
the column decreases from `xmin` to `xmax`. -/
theorem monotone_fails_on_overflow :
    ¬ ∀ (undef : Int × Int) (g : graph), Configured g → ∀ x1 x2 y1 y2 : ℚ,
        g.xmin ≤ x1 → x1 ≤ x2 → x2 ≤ g.xmax →
        (plotcoords undef g x1 y1).1 ≤ (plotcoords undef g x2 y2).1 := by
  intro h
  have hc := hugegraph_configured
  have hle := h (INT_MIN, INT_MIN) hugegraph hc hugegraph.xmin hugegraph.xmax 0 0 le_rfl
    hc.1.le le_rfl
  obtain ⟨h1, h2⟩ := hugegraph_columns (INT_MIN, INT_MIN) 0
  rw [h1, h2] at hle
  exact absurd hle (by decide)

/-- C5, amended.  For every configured graph whose width and height are at most
`2147483520` (the largest float below `2^31`) and whose float differences
`xmax - xmin` and `ymax - ymin` are finite and not zero: the column computed by
`plotpoint` is non-decreasing in `x` over `[xmin, xmax]` whatever the two `y`
are, the row is non-increasing in `y` over `[ymin, ymax]` whatever the two `x`
are, the column does not depend on `y` and the row does not depend on `x`. -/
theorem plotcoords_monotone (undef : Int × Int) (g : graph) (hg : Configured g)
    (hs : FiniteSpans g) (hw : g.pixelmap.width ≤ 2147483520)
    (hh : g.pixelmap.height ≤ 2147483520) :
    (∀ x1 x2 y1 y2 : ℚ, g.xmin ≤ x1 → x1 ≤ x2 → x2 ≤ g.xmax →
      (plotcoords undef g x1 y1).1 ≤ (plotcoords undef g x2 y2).1) ∧
    (∀ x1 x2 y1 y2 : ℚ, g.ymin ≤ y1 → y1 ≤ y2 → y2 ≤ g.ymax →
      (plotcoords undef g x1 y1).2 ≥ (plotcoords undef g x2 y2).2) ∧
    (∀ x y1 y2 : ℚ, (plotcoords undef g x y1).1 = (plotcoords undef g x y2).1) ∧
    (∀ x1 x2 y : ℚ, (plotcoords undef g x1 y).2 = (plotcoords undef g x2 y).2) := by
  have hK : rnd ((2147483520 : Int) : ℚ) = (2147483520 : Int) := by
    have := rnd_below_pow31
    push_cast
    exact this
  have hKm : (2147483520 : Int) ≤ INT_MAX := by decide
  refine ⟨?_, ?_, fun _ _ _ => rfl, fun _ _ _ => rfl⟩
  · intro x1 x2 y1 y2 h1 h12 h2
    rw [(coordx_in_domain undef g hg hs hw hK hKm x1 y1 h1 (h12.trans h2)).1,
      (coordx_in_domain undef g hg hs hw hK hKm x2 y2 (h1.trans h12) h2).1]
    exact Int.floor_le_floor
      (fcoord_mono (sub_nonneg.mpr h1) (by linarith) hs.1.1 hg.2.2.1.le)
  · intro x1 x2 y1 y2 h1 h12 h2
    rw [(coordy_in_domain undef g hg hs hh hK hKm x1 y1 h1 (h12.trans h2)).1,
      (coordy_in_domain undef g hg hs hh hK hKm x2 y2 (h1.trans h12) h2).1]
    exact Int.floor_le_floor
      (fcoord_mono (sub_nonneg.mpr h2) (by linarith) hs.2.1 hg.2.2.2.2.1.le)

/-- Witness of C5 amended on the unit graph: the column at `x = 1/4` is at most
the column at `x = 3/4`, with different `y` on the two sides. -/
theorem plotcoords_monotone_witness :
    Configured unitgraph ∧ FiniteSpans unitgraph ∧
    (plotcoords (0, 0) unitgraph (1/4) 0).1 ≤ (plotcoords (0, 0) unitgraph (3/4) 1).1 :=
  ⟨unitgraph_configured, unitgraph_spans,
   (plotcoords_monotone (0, 0) unitgraph unitgraph_configured unitgraph_spans
     (by norm_num [unitgraph]) (by norm_num [unitgraph])).1 (1/4) (3/4) 0 1
     (by norm_num [unitgraph]) (by norm_num) (by norm_num [unitgraph])⟩

/-! ## C6, C7: the two corners -/

/-- C6 as stated fails.  On the test graph (480 x 272, domain
`[-twopi, twopi] x [-2, 2]`) the bottom-left corner `(xmin, ymin)` is not
written at `(0, height - 1)`: the row is `272` and the point is dropped. -/
theorem bottom_left_not_written :
    ¬ ∀ (undef : Int × Int) (g : graph), Configured g → ∀ value : Nat,
        plotpoint undef recordpixel g g.xmin g.ymin value []
          = [(0, g.pixelmap.height - 1, value)] := by
  intro h
  have hc := testgraph_configured twopi twopi_pos
  have hcall := h (0, 0) (testgraph twopi) hc 7
  have hy : (plotcoords (0, 0) (testgraph twopi) (testgraph twopi).xmin
      (testgraph twopi).ymin).2 = (testgraph twopi).pixelmap.height :=
    coordy_ymin (0, 0) (testgraph twopi) hc testgraph_spans (by norm_num [testgraph]) _
  rw [plotpoint_dropped (0, 0) recordpixel _ _ _ 7 []
    (Or.inr (Or.inr (Or.inr (ge_of_eq hy))))] at hcall
  simp at hcall

/-- C6, amended.  For every configured graph whose height is at most `2^24` and
whose float differences `xmax - xmin` and `ymax - ymin` are finite and not
zero, plotting the bottom-left corner `(xmin, ymin)` is dropped as out of
range: the transform yields column `0` and row `height`, one past the last
row, so `plotpoint` makes no `setpixel` call and the memory is unchanged. -/
theorem bottom_left_dropped (undef : Int × Int) (g : graph) (hg : Configured g)
    (hs : FiniteSpans g) (hh : g.pixelmap.height ≤ 16777216) (value : Nat) :
    plotcoords undef g g.xmin g.ymin = (0, g.pixelmap.height) ∧
    (∀ (σ : Type) (setpixel : pixelmap → Int → Int → Nat → σ → σ) (mem : σ),
      plotpoint undef setpixel g g.xmin g.ymin value mem = mem) ∧
    plotpoint undef recordpixel g g.xmin g.ymin value [] = [] := by
  have hc : plotcoords undef g g.xmin g.ymin = (0, g.pixelmap.height) :=
    Prod.ext (coordx_xmin undef g hg hs g.ymin) (coordy_ymin undef g hg hs hh g.xmin)
  have hguard : (plotcoords undef g g.xmin g.ymin).1 < 0 ∨
      (plotcoords undef g g.xmin g.ymin).2 < 0 ∨
      (plotcoords undef g g.xmin g.ymin).1 ≥ g.pixelmap.width ∨
      (plotcoords undef g g.xmin g.ymin).2 ≥ g.pixelmap.height := by
    rw [hc]; exact Or.inr (Or.inr (Or.inr le_rfl))
  exact ⟨hc, fun σ setpixel mem => plotpoint_dropped undef setpixel g _ _ value mem hguard,
    plotpoint_dropped undef recordpixel g _ _ value [] hguard⟩

/-- Witness of C6 amended: width 480, height 272, domain
`[-twopi, twopi] x [-2, 2]`; the corner `(-twopi, -2)` gives `(0, 272)`. -/
theorem bottom_left_dropped_witness :
    Configured (testgraph twopi) ∧ FiniteSpans (testgraph twopi) ∧
    plotcoords (0, 0) (testgraph twopi) (-twopi) (-2) = (0, 272) :=
  ⟨testgraph_configured twopi twopi_pos, testgraph_spans,
   (bottom_left_dropped (0, 0) (testgraph twopi) (testgraph_configured twopi twopi_pos)
      testgraph_spans (by norm_num [testgraph]) 7).1⟩

/-- C7 as stated fails.  On the configured wide graph (unit square, width
`2^24 + 1`) the top-right corner `(xmax, ymax)` is not dropped: the width
converts to the float `2^24`, the column is `16777216 < width`, and
`plotpoint` calls `setpixel` at `(16777216, 0)`. -/
theorem top_right_written_on_wide_graph :
    ¬ ∀ (undef : Int × Int) (g : graph), Configured g → ∀ value : Nat,
        plotcoords undef g g.xmax g.ymax = (g.pixelmap.width, 0) ∧
        plotpoint undef recordpixel g g.xmax g.ymax value [] = [] := by
  intro h
  have hcall := (h (0, 0) widegraph widegraph_configured 7).2
  have hco : plotcoords (0, 0) widegraph widegraph.xmax widegraph.ymax = (16777216, 0) :=
    widegraph_corner_coords (0, 0)
  rw [plotpoint_written (0, 0) recordpixel widegraph _ _ 7 [] (by rw [hco]; decide)] at hcall
  simp [recordpixel] at hcall

/-- C7, amended.  For every configured graph whose width is at most `2^24` and
whose float differences `xmax - xmin` and `ymax - ymin` are finite and not
zero, plotting the top-right corner `(xmax, ymax)` is dropped as out of range:
the transform yields column `width` and row `0`, so `plotpoint` makes no
`setpixel` call and the memory is unchanged. -/
theorem top_right_dropped (undef : Int × Int) (g : graph) (hg : Configured g)
    (hs : FiniteSpans g) (hw : g.pixelmap.width ≤ 16777216) (value : Nat) :
    plotcoords undef g g.xmax g.ymax = (g.pixelmap.width, 0) ∧
    (∀ (σ : Type) (setpixel : pixelmap → Int → Int → Nat → σ → σ) (mem : σ),
      plotpoint undef setpixel g g.xmax g.ymax value mem = mem) ∧
    plotpoint undef recordpixel g g.xmax g.ymax value [] = [] := by
  have hc : plotcoords undef g g.xmax g.ymax = (g.pixelmap.width, 0) :=
    Prod.ext (coordx_xmax undef g hg hs hw g.ymax) (coordy_ymax undef g hg hs g.xmax)
  have hguard : (plotcoords undef g g.xmax g.ymax).1 < 0 ∨
      (plotcoords undef g g.xmax g.ymax).2 < 0 ∨
      (plotcoords undef g g.xmax g.ymax).1 ≥ g.pixelmap.width ∨
      (plotcoords undef g g.xmax g.ymax).2 ≥ g.pixelmap.height := by
    rw [hc]; exact Or.inr (Or.inr (Or.inl le_rfl))
  exact ⟨hc, fun σ setpixel mem => plotpoint_dropped undef setpixel g _ _ value mem hguard,
    plotpoint_dropped undef recordpixel g _ _ value [] hguard⟩

/-- Witness of C7 amended: width 480, height 272, domain
`[-twopi, twopi] x [-2, 2]`; the corner `(twopi, 2)` gives column 480 and no
call. -/
theorem top_right_dropped_witness :
    Configured (testgraph twopi) ∧ FiniteSpans (testgraph twopi) ∧
    plotcoords (0, 0) (testgraph twopi) twopi 2 = (480, 0) ∧
    plotpoint (0, 0) recordpixel (testgraph twopi) twopi 2 7 [] = [] :=
  ⟨testgraph_configured twopi twopi_pos, testgraph_spans,
   (top_right_dropped (0, 0) (testgraph twopi) (testgraph_configured twopi twopi_pos)
      testgraph_spans (by norm_num [testgraph]) 7).1,
   (top_right_dropped (0, 0) (testgraph twopi) (testgraph_configured twopi twopi_pos)
      testgraph_spans (by norm_num [testgraph]) 7).2.2⟩

/-! ## C8: setupgraph -/

/-- C8 as stated fails.  `setupgraph` called with the degenerate bounds
`xmin = xmax = 0`, `ymin = ymax = 0` returns `true`, so success is not
equivalent to `xmax > xmin` and `ymax > ymin`. -/
theorem setupgraph_accepts_degenerate :
    ¬ ∀ (g : graph) (xmin ymin xmax ymax : ℚ) (pm : pixelmap),
        ((setupgraph g xmin ymin xmax ymax pm).1 = true ↔ (xmax > xmin ∧ ymax > ymin)) := by
  intro h
  have h0 := (h unitgraph 0 0 0 0 unitgraph.pixelmap).mp rfl
  exact lt_irrefl (0 : ℚ) h0.1

/-- C8, amended.  `setupgraph` reports success (returns `true`) for every call,
degenerate and inverted bounds included, and the graph it leaves has `xmin`,
`ymin`, `xmax`, `ymax` and the pixelmap descriptor equal to the arguments. -/
theorem setupgraph_always_succeeds (g : graph) (xmin ymin xmax ymax : ℚ) (pm : pixelmap) :
    (setupgraph g xmin ymin xmax ymax pm).1 = true ∧
    (setupgraph g xmin ymin xmax ymax pm).2.xmin = xmin ∧
    (setupgraph g xmin ymin xmax ymax pm).2.ymin = ymin ∧
    (setupgraph g xmin ymin xmax ymax pm).2.xmax = xmax ∧
    (setupgraph g xmin ymin xmax ymax pm).2.ymax = ymax ∧
    (setupgraph g xmin ymin xmax ymax pm).2.pixelmap = pm :=
  ⟨rfl, rfl, rfl, rfl, rfl, rfl⟩

/-! ## C9: saveimage -/

/-- An `int` product that does not overflow is the exact product. -/
theorem imul_exact {a b : Int} (h1 : INT_MIN ≤ a * b) (h2 : a * b ≤ INT_MAX) :
    imul a b = a * b := by
  unfold INT_MIN at h1
  unfold INT_MAX at h2
  unfold imul wrap32
  omega

/-- For the three supported depths, when the index does not overflow, the row
pointer is `y * stride * (bpp / 8)` bytes past `pixeldata`. -/
theorem rowpointer_supported (pm : pixelmap) (y : Int)
    (h : pm.bpp = 8 ∨ pm.bpp = 24 ∨ pm.bpp = 32) (hfit : IndexFits pm y) :
    rowpointer pm y = some (y * pm.stride * (pm.bpp / 8)) := by
  obtain ⟨h1, h2, h3⟩ := hfit
  rcases h with h | h | h
  · simp [rowpointer, h, imul_exact h1 h2]
  · obtain ⟨h4, h5⟩ := h3 h
    simp [rowpointer, h, imul_exact h1 h2, imul_exact h4 h5]
  · simp [rowpointer, h, imul_exact h1 h2]
    ring

/-- Entry `y` of `png_rows` is the row pointer of `y`, for `0 ≤ y < height`. -/
theorem png_rows_get (pm : pixelmap) (y : Nat) (hy : (y : Int) < pm.height) :
    (png_rows pm)[y]? = some (rowpointer pm y) := by
  have : y < pm.height.toNat := by omega
  rw [png_rows, List.getElem?_map, List.getElem?_range this]
  rfl

/-- Every header and every row table in the trace of `saveimage` is the one the
two switches compute. -/
theorem saveimage_mem (env : pngenv) (pm : pixelmap) (c : pngcall)
    (hc : c ∈ saveimage env pm) :
    (∀ w h d t, c = pngcall.png_set_IHDR w h d t →
      w = pm.width ∧ h = pm.height ∧ d = 8 ∧ color_type_switch pm.bpp = some t) ∧
    (∀ rows, c = pngcall.png_set_rows rows →
      rows = png_rows pm ∧ color_type_switch pm.bpp ≠ none) ∧
    (c = pngcall.png_write_png → color_type_switch pm.bpp ≠ none) := by
  unfold saveimage at hc
  split_ifs at hc with h1 h2 h3
  · simp at hc; subst hc; simp
  · simp at hc; rcases hc with rfl | rfl | rfl <;> simp
  · simp at hc; rcases hc with rfl | rfl | rfl | rfl | rfl <;> simp
  · split at hc
    · simp at hc; rcases hc with rfl | rfl | rfl | rfl | rfl | rfl <;> simp
    · rename_i t ht
      simp only [List.append_assoc, List.mem_append] at hc
      rcases hc with hc | hc | hc
      · simp at hc; rcases hc with rfl | rfl | rfl <;> simp
      · have hsub : c ∈ [pngcall.png_set_IHDR pm.width pm.height 8 t,
            pngcall.png_malloc pm.height, pngcall.png_init_io,
            pngcall.png_set_rows (png_rows pm), pngcall.png_write_png, pngcall.png_free] := by
          split at hc
          · exact List.mem_of_mem_take hc
          · exact hc
        simp at hsub
        rcases hsub with rfl | rfl | rfl | rfl | rfl | rfl <;> simp [ht]
        intro w h d t1 hw hh hd htt
        exact ⟨hw.symm, hh.symm, hd.symm, htt⟩
      · simp at hc; rcases hc with rfl | rfl <;> simp

/-- C9 as stated fails, twice.  With a depth of 16 and `fopen` failing,
`saveimage` returns without reporting the error.  With a depth of 8, a stride
of `2^30` and row `y = 2`, the `int` index `y * stride` overflows and the row
pointer is not `y * stride * (bpp / 8)` bytes past the pixel data. -/
theorem saveimage_silent_or_overflowing :
    (¬ ∀ (env : pngenv) (pm : pixelmap), color_type_switch pm.bpp = none →
        pngcall.fprintf_stderr ∈ saveimage env pm) ∧
    (¬ ∀ (pm : pixelmap) (y : Nat), (pm.bpp = 8 ∨ pm.bpp = 24 ∨ pm.bpp = 32) →
        (y : Int) < pm.height →
        (png_rows pm)[y]? = some (some (y * pm.stride * (pm.bpp / 8)))) := by
  constructor
  · intro h
    have := h pngenv.nofile deepmap (by decide)
    revert this
    decide
  · intro h
    have := h stridemap 2 (by decide) (by decide)
    revert this
    decide

/-- C9, amended.  The colour type is decided by `bpp` alone: 8 selects
grayscale, 24 RGB, 32 RGB with alpha, every other depth none.  With a
supported depth and every call succeeding, `saveimage` sets the header with
that colour type and hands the encoder the table `png_rows`.  With any other
depth its trace has no header, no row table and no write, whatever the outside
world answers, and once `fopen` and the two libpng constructors have succeeded
it prints the error and returns.  For a supported depth the table has one
entry per row and entry `y` is `y * stride * (bpp / 8)` bytes past
`pixeldata`, for every `0 ≤ y < height` whose `int` index does not
overflow. -/
theorem saveimage_depth_dispatch (env : pngenv) (pm : pixelmap) :
    (color_type_switch 8 = some png_color_type.PNG_COLOR_TYPE_GRAY ∧
      color_type_switch 24 = some png_color_type.PNG_COLOR_TYPE_RGB ∧
      color_type_switch 32 = some png_color_type.PNG_COLOR_TYPE_RGB_ALPHA ∧
      ∀ b : Int, b ≠ 8 → b ≠ 24 → b ≠ 32 → color_type_switch b = none) ∧
    (∀ t, color_type_switch pm.bpp = some t →
      saveimage pngenv.ok pm =
        [pngcall.fopen, pngcall.png_create_write_struct, pngcall.png_create_info_struct,
         pngcall.png_set_IHDR pm.width pm.height 8 t, pngcall.png_malloc pm.height,
         pngcall.png_init_io, pngcall.png_set_rows (png_rows pm), pngcall.png_write_png,
         pngcall.png_free, pngcall.png_destroy_write_struct, pngcall.fclose]) ∧
    (∀ w h d t, pngcall.png_set_IHDR w h d t ∈ saveimage env pm →
      color_type_switch pm.bpp = some t) ∧
    (color_type_switch pm.bpp = none →
      (∀ c ∈ saveimage env pm,
        (∀ w h d t, c ≠ pngcall.png_set_IHDR w h d t) ∧
        (∀ rows, c ≠ pngcall.png_set_rows rows) ∧ c ≠ pngcall.png_write_png) ∧
      (env.fopen_ok = true → env.write_struct_ok = true → env.info_struct_ok = true →
        saveimage env pm =
          [pngcall.fopen, pngcall.png_create_write_struct, pngcall.png_create_info_struct,
           pngcall.fprintf_stderr, pngcall.png_destroy_write_struct, pngcall.fclose])) ∧
    (pm.bpp = 8 ∨ pm.bpp = 24 ∨ pm.bpp = 32 →
      (png_rows pm).length = pm.height.toNat ∧
      ∀ y : Nat, (y : Int) < pm.height → IndexFits pm y →
        (png_rows pm)[y]? = some (some (y * pm.stride * (pm.bpp / 8)))) := by
  refine ⟨⟨rfl, rfl, rfl, ?_⟩, ?_, ?_, ?_, ?_⟩
  · intro b h8 h24 h32
    simp [color_type_switch, h8, h24, h32]
  · intro t ht
    simp [saveimage, pngenv.ok, ht]
  · intro w h d t hmem
    exact ((saveimage_mem env pm _ hmem).1 w h d t rfl).2.2.2
  · intro hnone
    constructor
    · intro c hc
      obtain ⟨h1, h2, h3⟩ := saveimage_mem env pm c hc
      refine ⟨?_, ?_, ?_⟩
      · intro w h d t heq
        have := (h1 w h d t heq).2.2.2
        rw [hnone] at this
        cases this
      · intro rows heq
        exact (h2 rows heq).2 hnone
      · intro heq
        exact h3 heq hnone
    · intro e1 e2 e3
      simp [saveimage, e1, e2, e3, hnone]
  · intro hb
    constructor
    · simp [png_rows]
    · intro y hy hfit
      rw [png_rows_get pm y hy, rowpointer_supported pm y hb hfit]

/-- Witness of C9 amended: the 2 x 3 pixelmap of depth 24 and stride 4 is
saved as RGB, with rows 0, 12 and 24 bytes past the pixel data. -/
theorem saveimage_depth_dispatch_witness :
    saveimage pngenv.ok rgbmap =
      [pngcall.fopen, pngcall.png_create_write_struct, pngcall.png_create_info_struct,
       pngcall.png_set_IHDR 2 3 8 png_color_type.PNG_COLOR_TYPE_RGB, pngcall.png_malloc 3,
       pngcall.png_init_io, pngcall.png_set_rows [some 0, some 12, some 24],
       pngcall.png_write_png, pngcall.png_free, pngcall.png_destroy_write_struct,
       pngcall.fclose] ∧
    IndexFits rgbmap 2 ∧ (png_rows rgbmap)[2]? = some (some 24) :=
  ⟨(saveimage_depth_dispatch pngenv.ok rgbmap).2.1 png_color_type.PNG_COLOR_TYPE_RGB rfl,
   by decide,
   ((saveimage_depth_dispatch pngenv.ok rgbmap).2.2.2.2 (Or.inr (Or.inl rfl))).2 2
     (by decide) (by decide)⟩

/-! ## C10: getdt -/

/-- The value `getdt` returns does not change when whole seconds are added to
the clock: the seconds of the difference are never read. -/
theorem getdt_ignores_seconds (sec usec k : Int) (last : timeval) :
    (getdt ⟨sec + k, usec⟩ last).1 = (getdt ⟨sec, usec⟩ last).1 := by
  simp only [getdt, timersub]
  split_ifs <;> rfl

/-- C10, evaluated at the failing input.  With `last_time` at 0 s 0 us and
`now` at 1 s 500000 us (both well formed, `last_time` not later than `now`)
the elapsed time is `3/2` seconds and `getdt` returns the float `1/2`. -/
theorem getdt_drops_whole_seconds :
    timeval.wf ⟨1, 500000⟩ ∧ timeval.wf ⟨0, 0⟩ ∧ timeval.le ⟨0, 0⟩ ⟨1, 500000⟩ ∧
    specElapsed ⟨1, 500000⟩ ⟨0, 0⟩ = 3 / 2 ∧
    (getdt ⟨1, 500000⟩ ⟨0, 0⟩).1 = float.fin (1 / 2) := by
  refine ⟨by decide, by decide, by decide, ?_, ?_⟩
  · norm_num [specElapsed]
  · have h1 : itof 500000 = float.fin 500000 := by
      have := itof_exact (w := 500000) (by norm_num) (by norm_num)
      simpa using this
    have h2 : itof 1000000 = float.fin 1000000 := by
      have := itof_exact (w := 1000000) (by norm_num) (by norm_num)
      simpa using this
    have h3 : (500000 : Int) - 0 = 500000 := by norm_num
    simp only [getdt, timersub]
    rw [if_neg (by norm_num), h3, h1, h2]
    simp only [fdiv]
    rw [if_neg (by norm_num)]
    exact round32_val_pos (-1) 8388608 (by norm_num) (by norm_num) (by norm_num)
      (by norm_num) (by norm_num) (by norm_num)

end Cplot
